import Mathlib

/-!
# OPD token engine — shallow embedding and verification

This file embeds the allocation/scheduling core of the OPD token engine
(TypeScript sources under `src/`) as executable Lean definitions and proves
properties of the embedded operations.

Modelling conventions (object identity and mutation):

* The TypeScript code mutates `Token` objects that are shared between the
  per-doctor token map (`tokens: Map<string, Token>`), the per-doctor queue
  (which holds `Token` object references) and the slots (which hold token id
  strings).  We model the token map as an association list
  `List (String × Token)` — the single home of token state — and model the
  queue and the slots as lists of id strings.  A TypeScript function that
  receives a `Token` object is modelled as receiving the token *value*;
  mutation of the object's fields is modelled as an update of the association
  list at the token's `id` key (a no-op when the id has no binding, matching
  the fact that mutating an object that was never put in the map leaves the
  map unchanged).  Theorems that need the map, the queue and the object graph
  to agree carry explicit well-formedness hypotheses (each queued id resolves
  in the map; each binding's value carries its own key as `id`).
* `new Date()` timestamps are modelled by an explicit `now : Int` parameter
  (milliseconds since the epoch); `Date#getTime()` is that integer.
* JavaScript numbers used for priority scores are modelled as `ℚ` (the only
  arithmetic performed on them is exact at small scales).
* A TypeScript out-of-range indexing fault (`undefined` dereference) aborts
  the operation; we model the aborted operation as returning the state as it
  was at the fault point, and keep such cases out of the verified paths via
  range hypotheses.
-/

/-- Slot availability status (`src/models/Slot.ts`). -/
inductive SlotStatus where
  | AVAILABLE
  | FULL
  | BLOCKED
deriving DecidableEq, Repr

/-- Patient source classes (`src/models/Token.ts`), lowest to highest priority. -/
inductive PatientSource where
  | WALKIN
  | FOLLOWUP
  | ONLINE
  | REFERRAL
  | EMERGENCY
deriving DecidableEq, Repr

/-- Token flexibility levels for reshuffling (`src/models/Token.ts`). -/
inductive TokenFlexibility where
  | HIGH
  | MEDIUM
  | LOW
deriving DecidableEq, Repr

/-- Token lifecycle states (`src/models/Token.ts`). -/
inductive TokenStatus where
  | REQUESTED
  | QUEUED
  | ALLOCATED
  | CANCELLED
  | NO_SHOW
  | COMPLETED
  | REQUEUED
deriving DecidableEq, Repr

/-- Token model (`src/models/Token.ts`). -/
structure Token where
  id : String
  patientName : String
  patientAge : Nat
  source : PatientSource
  status : TokenStatus
  doctorId : Option String
  slotIndex : Option Nat
  priorityScore : ℚ
  requestedAt : Int
  allocatedAt : Option Int
  completedAt : Option Int
  flexibility : Option TokenFlexibility
deriving DecidableEq, Repr

/-- Slot model (`src/models/Slot.ts`). -/
structure Slot where
  startTime : Int
  endTime : Int
  capacity : Nat
  allocatedTokenIds : List String
  status : SlotStatus
  emergencyCount : Nat
deriving DecidableEq, Repr

/-- The doctor configuration read by the engine (`src/models/Doctor.ts` is not
under `src/`; these are exactly the fields the engine code dereferences). -/
structure DoctorCfg where
  id : String
  maxEmergenciesPerSlot : Option Nat
  maxEmergenciesPerDay : Option Nat
deriving DecidableEq, Repr

/-- The mutable per-doctor state acted on by the engine: the doctor's slot
ledger, the token arena (`tokens: Map<string, Token>`) and the doctor's
priority queue (ids of the queued tokens, head = highest priority). -/
structure EngineState where
  slots : List Slot
  tokens : List (String × Token)
  queue : List String
deriving DecidableEq, Repr

/-- Look up a token binding in the arena (first binding for the key, as with
`Map#get`). -/
def lookupTok : List (String × Token) → String → Option Token
  | [], _ => none
  | (k, v) :: rest, id => if k = id then some v else lookupTok rest id

/-- Mutate the token object bound to `id` (no-op when the key is absent,
matching mutation of an object that is not in the map). -/
def updateTok (f : Token → Token) : List (String × Token) → String → List (String × Token)
  | [], _ => []
  | (k, v) :: rest, id => if k = id then (k, f v) :: rest else (k, v) :: updateTok f rest id

/-- Update the slot at position `i` (no-op when out of range). -/
def updAt (f : Slot → Slot) : Nat → List Slot → List Slot
  | _, [] => []
  | 0, s :: rest => f s :: rest
  | n + 1, s :: rest => s :: updAt f n rest

/-- Remove the first occurrence of `id` (the `indexOf`/`splice(idx, 1)` idiom). -/
def removeFirst : List String → String → List String
  | [], _ => []
  | x :: rest, id => if x = id then rest else x :: removeFirst rest id

/-- The slot mutation of every allocation site: push an occupant id and mark
the slot `FULL` when it reaches capacity. -/
def pushOccFn (tokId : String) (s : Slot) : Slot :=
  let occ := s.allocatedTokenIds ++ [tokId]
  { s with
    allocatedTokenIds := occ,
    status := if occ.length = s.capacity then SlotStatus.FULL else s.status }

/-- The slot mutation of every removal site: replace the occupant list and
revert `FULL` to `AVAILABLE` when capacity frees. -/
def removeOccFn (occ : List String) (s : Slot) : Slot :=
  { s with
    allocatedTokenIds := occ,
    status :=
      if s.status = SlotStatus.FULL ∧ occ.length < s.capacity then SlotStatus.AVAILABLE
      else s.status }

/-- The priority score the queue reads for a queued id (the queue holds object
references in TypeScript; under well-formedness this is the object's score). -/
def scoreOf (tokens : List (String × Token)) (id : String) : ℚ :=
  match lookupTok tokens id with
  | some t => t.priorityScore
  | none => 0

/-- `calculatePriority` (`src/engine/priorityCalculator.ts`): disjoint base
band per class plus a timestamp tiebreaker `-requestedAt / 1e9`. -/
def calculatePriority (token : Token) : ℚ :=
  let basePriority : ℚ :=
    match token.source with
    | PatientSource.EMERGENCY => 1000
    | PatientSource.REFERRAL => 500
    | PatientSource.FOLLOWUP => 300
    | PatientSource.ONLINE => 100
    | PatientSource.WALKIN => 0
  basePriority + -(token.requestedAt : ℚ) / 1000000000

/-- `QueueManager.enqueue` insertion walk: insert before the first entry whose
score is strictly below the inserted token's score. -/
def insertByScore (tokens : List (String × Token)) (tok : Token) : List String → List String
  | [] => [tok.id]
  | id :: rest =>
    if tok.priorityScore > scoreOf tokens id then tok.id :: id :: rest
    else id :: insertByScore tokens tok rest

/-- `QueueManager.enqueue` (`src/engine/queueManager.ts`). -/
def enqueueTok (tok : Token) (st : EngineState) : EngineState :=
  { st with queue := insertByScore st.tokens tok st.queue }

/-- The slot-scan core of `AllocationEngine.allocateToken`: first slot that is
`AVAILABLE` with spare capacity receives the token id and is marked `FULL` if
now at capacity.  Returns the chosen index and updated slot list. -/
def allocateTokenSlots (tokId : String) : List Slot → Option (Nat × List Slot)
  | [] => none
  | s :: rest =>
    if s.status = SlotStatus.AVAILABLE ∧ s.allocatedTokenIds.length < s.capacity then
      some (0, pushOccFn tokId s :: rest)
    else
      match allocateTokenSlots tokId rest with
      | none => none
      | some (i, rest') => some (i + 1, s :: rest')

/-- The token-state update performed on a successful allocation. -/
def allocMark (cfg : DoctorCfg) (i : Nat) (now : Int) (t : Token) : Token :=
  { t with
    status := TokenStatus.ALLOCATED
    doctorId := some cfg.id
    slotIndex := some i
    allocatedAt := some now }

/-- `AllocationEngine.allocateToken` (`src/engine/allocationEngine.ts`). -/
def allocateToken (tok : Token) (cfg : DoctorCfg) (now : Int) (st : EngineState) :
    Option Nat × EngineState :=
  match allocateTokenSlots tok.id st.slots with
  | none => (none, st)
  | some (i, slots') =>
    (some i, { st with slots := slots', tokens := updateTok (allocMark cfg i now) st.tokens tok.id })

/-- The `while (true)` body of `AllocationEngine.allocateFromQueue`, with an
explicit fuel bound; `allocateFromQueue` runs it with fuel equal to the queue
length, which is shown sufficient (the loop strictly shrinks the queue). -/
def drainLoop (cfg : DoctorCfg) (now : Int) : Nat → EngineState → Nat × EngineState
  | 0, st => (0, st)
  | fuel + 1, st =>
    match st.queue with
    | [] => (0, st)
    | id :: rest =>
      match lookupTok st.tokens id with
      | none => (0, st)
      | some tok =>
        let st1 : EngineState := { st with queue := rest }
        match allocateToken tok cfg now st1 with
        | (none, st2) => (0, enqueueTok tok st2)
        | (some _, st2) =>
          let r := drainLoop cfg now fuel st2
          (r.1 + 1, r.2)

/-- `AllocationEngine.allocateFromQueue` (`src/engine/allocationEngine.ts`). -/
def allocateFromQueue (cfg : DoctorCfg) (now : Int) (st : EngineState) : Nat × EngineState :=
  drainLoop cfg now st.queue.length st

/-- The token-state update applied to each displaced token during
`AllocationEngine.reallocate`. -/
def requeueMark (t : Token) : Token :=
  { t with status := TokenStatus.REQUEUED, slotIndex := none, allocatedAt := none }

/-- Steps 1–2 of `AllocationEngine.reallocate` applied to a tail of the slot
list: for each slot, every occupant id that resolves in the arena is marked
`REQUEUED` (slot linkage cleared) and collected, and the slot's occupant list
is emptied.  Returns the updated arena, the cleared slots and the collected
ids in slot order. -/
def collectAndClear (arena : List (String × Token)) :
    List Slot → List (String × Token) × List Slot × List String
  | [] => (arena, [], [])
  | s :: rest =>
    let found := s.allocatedTokenIds.filter (fun id => (lookupTok arena id).isSome)
    let arena1 := found.foldl (fun a id => updateTok requeueMark a id) arena
    let r := collectAndClear arena1 rest
    (r.1, { s with allocatedTokenIds := [] } :: r.2.1, found ++ r.2.2)

/-- `QueueManager.requeue`: enqueue each displaced token in turn (looked up by
id; every collected id resolves by construction). -/
def requeueIds (ids : List String) (st : EngineState) : EngineState :=
  ids.foldl
    (fun st id =>
      match lookupTok st.tokens id with
      | some tok => enqueueTok tok st
      | none => st)
    st

/-- Steps 1–2 of `AllocationEngine.reallocate` on the whole state: clear every
slot from `fromSlotIndex` on and mark the resolved occupants `REQUEUED`.
Returns the displaced ids and the cleared state. -/
def reallocateClear (fromSlotIndex : Nat) (st : EngineState) : List String × EngineState :=
  let r := collectAndClear st.tokens (st.slots.drop fromSlotIndex)
  (r.2.2,
    { slots := st.slots.take fromSlotIndex ++ r.2.1, tokens := r.1, queue := st.queue })

/-- `AllocationEngine.reallocate` (`src/engine/allocationEngine.ts`): clear all
slots from `fromSlotIndex` on, mark the displaced tokens `REQUEUED`, re-enqueue
them, then drain the queue once.  Returns the displaced ids. -/
def reallocate (cfg : DoctorCfg) (now : Int) (fromSlotIndex : Nat) (st : EngineState) :
    List String × EngineState :=
  let c := reallocateClear fromSlotIndex st
  let st2 := requeueIds c.1 c.2
  (c.1, (allocateFromQueue cfg now st2).2)

/-- `AllocationEngine.freeTokenFromSlot` (`src/engine/allocationEngine.ts`). -/
def freeTokenFromSlot (tok : Token) (st : EngineState) : EngineState :=
  match tok.slotIndex with
  | none => st
  | some i =>
    match st.slots.get? i with
    | none => st
    | some slot =>
      let st1 : EngineState :=
        if tok.id ∈ slot.allocatedTokenIds then
          { st with
              slots := updAt (removeOccFn (removeFirst slot.allocatedTokenIds tok.id)) i st.slots }
        else st
      { st1 with
          tokens := updateTok (fun t => { t with slotIndex := none, allocatedAt := none })
            st1.tokens tok.id }

/-- Numeric flexibility ranking used by `EmergencyReshuffler.findMostFlexibleToken`
(`src/engine/emergencyReshuffler.ts`).  An unset flexibility scores `0`, which
still beats the scan's initial best of `-1`. -/
def flexScore (t : Token) : Int :=
  match t.flexibility with
  | some TokenFlexibility.HIGH => 3
  | some TokenFlexibility.MEDIUM => 2
  | some TokenFlexibility.LOW => 1
  | none => 0

/-- The occupant scan of `EmergencyReshuffler.findMostFlexibleToken`: fold over
the slot's occupant ids tracking the best (strictly greater score wins, first
encountered wins ties). -/
def flexFold (arena : List (String × Token)) (occ : List String)
    (best : Option Token × Int) : Option Token × Int :=
  occ.foldl
    (fun best id =>
      match lookupTok arena id with
      | none => best
      | some t => if flexScore t > best.2 then (some t, flexScore t) else best)
    best

/-- `EmergencyReshuffler.findMostFlexibleToken`. -/
def findMostFlexibleToken (arena : List (String × Token)) (occ : List String) : Option Token :=
  (flexFold arena occ (none, -1)).1

/-- `EmergencyReshuffler.findNearbySlotWithCapacity`: first index in the given
order whose slot is `AVAILABLE` with spare capacity. -/
def firstAvail (slots : List Slot) (idxs : List Nat) : Option Nat :=
  idxs.find? (fun i =>
    match slots.get? i with
    | some s => s.status = SlotStatus.AVAILABLE ∧ s.allocatedTokenIds.length < s.capacity
    | none => false)

/-- The `±window` index order searched by `findNearbySlotWithCapacity`:
forward `cur+1 … min (len-1) (cur+window)` first, then backward
`cur-1 … max 0 (cur-window)`. -/
def nearbyIdxs (len cur window : Nat) : List Nat :=
  let maxSlot := min (len - 1) (cur + window)
  (List.range' (cur + 1) (maxSlot + 1 - (cur + 1))) ++
    (List.range' (cur - window) (cur - (cur - window))).reverse

/-- `EmergencyReshuffler.findNearbySlotWithCapacity`. -/
def findNearbySlotWithCapacity (slots : List Slot) (cur window : Nat) : Option Nat :=
  firstAvail slots (nearbyIdxs slots.length cur window)

/-- `EmergencyReshuffler.shiftToken`: remove the token id from the source slot
(reverting `FULL` to `AVAILABLE` if capacity frees), push it onto the
destination slot (marking `FULL` at capacity), and update the token's slot
linkage and allocation timestamp. -/
def shiftToken (tok : Token) (fromIdx toIdx : Nat) (now : Int) (st : EngineState) : EngineState :=
  match st.slots.get? fromIdx with
  | none => st
  | some fromSlot =>
    let st1 : EngineState :=
      if tok.id ∈ fromSlot.allocatedTokenIds then
        { st with
            slots :=
              updAt (removeOccFn (removeFirst fromSlot.allocatedTokenIds tok.id)) fromIdx st.slots }
      else st
    match st1.slots.get? toIdx with
    | none => st1
    | some _ =>
      let st2 : EngineState :=
        { st1 with slots := updAt (pushOccFn tok.id) toIdx st1.slots }
      { st2 with
          tokens := updateTok (fun t => { t with slotIndex := some toIdx, allocatedAt := some now })
            st2.tokens tok.id }

/-- `EmergencyReshuffler.allocateEmergencyToSlot`: verify spare capacity, push
the emergency id, update status and the token's state. -/
def allocateEmergencyToSlot (emTok : Token) (cfg : DoctorCfg) (now : Int) (slotIdx : Nat)
    (st : EngineState) : Option Nat × EngineState :=
  match st.slots.get? slotIdx with
  | none => (none, st)
  | some slot =>
    if slot.allocatedTokenIds.length ≥ slot.capacity then (none, st)
    else
      let st1 : EngineState :=
        { st with slots := updAt (pushOccFn emTok.id) slotIdx st.slots }
      (some slotIdx,
        { st1 with tokens := updateTok (allocMark cfg slotIdx now) st1.tokens emTok.id })

/-- The target-slot scan of `EmergencyReshuffler.attemptReshuffle`, over the
list of candidate slot indices.  Continue-branches leave the state untouched;
a successful branch commits a shift plus an emergency allocation and returns. -/
def reshuffleGo (cfg : DoctorCfg) (now : Int) (emTok : Token) (st : EngineState) :
    List Nat → Option Nat × EngineState
  | [] => (none, st)
  | i :: rest =>
    match st.slots.get? i with
    | none => (none, st)
    | some targetSlot =>
      if targetSlot.status = SlotStatus.BLOCKED then
        reshuffleGo cfg now emTok st rest
      else if targetSlot.allocatedTokenIds.length < targetSlot.capacity then
        allocateEmergencyToSlot emTok cfg now i st
      else
        match findMostFlexibleToken st.tokens targetSlot.allocatedTokenIds with
        | none => reshuffleGo cfg now emTok st rest
        | some flexibleToken =>
          match findNearbySlotWithCapacity st.slots i 2 with
          | none => reshuffleGo cfg now emTok st rest
          | some destinationSlot =>
            let st1 := shiftToken flexibleToken i destinationSlot now st
            allocateEmergencyToSlot emTok cfg now i st1

/-- `EmergencyReshuffler.attemptReshuffle` (`src/engine/emergencyReshuffler.ts`). -/
def attemptReshuffle (cfg : DoctorCfg) (now : Int) (emTok : Token) (st : EngineState) :
    Option Nat × EngineState :=
  reshuffleGo cfg now emTok st (List.range st.slots.length)

/-- `allocateWithQuotaCheck` (`src/events/emergencyHandler.ts`): first slot
that is not blocked, has spare capacity and is below the per-slot emergency
ceiling (`maxEmergenciesPerSlot`, default 1). -/
def quotaScan (tokId : String) (maxPerSlot : Nat) : List Slot → Option (Nat × List Slot)
  | [] => none
  | s :: rest =>
    if s.status ≠ SlotStatus.BLOCKED ∧ s.allocatedTokenIds.length < s.capacity ∧
        s.emergencyCount < maxPerSlot then
      some (0, pushOccFn tokId s :: rest)
    else
      match quotaScan tokId maxPerSlot rest with
      | none => none
      | some (i, rest') => some (i + 1, s :: rest')

/-- `allocateWithQuotaCheck` (`src/events/emergencyHandler.ts`). -/
def allocateWithQuotaCheck (tok : Token) (cfg : DoctorCfg) (now : Int) (st : EngineState) :
    Option Nat × EngineState :=
  match quotaScan tok.id (cfg.maxEmergenciesPerSlot.getD 1) st.slots with
  | none => (none, st)
  | some (i, slots') =>
    (some i, { st with slots := slots', tokens := updateTok (allocMark cfg i now) st.tokens tok.id })

/-- `countDailyEmergencies` (`src/events/emergencyHandler.ts`). -/
def countDailyEmergencies (slots : List Slot) : Nat :=
  slots.foldl (fun sum s => sum + s.emergencyCount) 0

/-- The queue fallback of `handleEmergency`: mark the token `QUEUED`, attach
the doctor and enqueue at its priority position. -/
def emergencyEnqueue (cfg : DoctorCfg) (tok1 : Token) (s : EngineState) : Bool × EngineState :=
  let tok2 := { tok1 with status := TokenStatus.QUEUED, doctorId := some cfg.id }
  let s1 : EngineState :=
    { s with tokens := updateTok (fun t =>
        { t with status := TokenStatus.QUEUED, doctorId := some cfg.id }) s.tokens tok1.id }
  (false, enqueueTok tok2 s1)

/-- `doctor.slots[i].emergencyCount++` as performed by `handleEmergency` after
a successful placement. -/
def bumpEmergencyCount (i : Nat) (s : EngineState) : EngineState :=
  { s with slots := updAt (fun sl => { sl with emergencyCount := sl.emergencyCount + 1 }) i s.slots }

/-- The placement cascade of `handleEmergency`: direct placement with quota
check, then the reshuffling fallback (when a reshuffler was supplied), then
queueing.  The emergency counter of the receiving slot is incremented with no
further quota check on the reshuffle path, exactly as in the source. -/
def emergencyAllocPath (cfg : DoctorCfg) (now : Int) (withReshuffle : Bool) (tok1 : Token)
    (s : EngineState) : Bool × EngineState :=
  match allocateWithQuotaCheck tok1 cfg now s with
  | (some i, s2) => (true, bumpEmergencyCount i s2)
  | (none, s2) =>
    if withReshuffle then
      match attemptReshuffle cfg now tok1 s2 with
      | (some j, s3) => (true, bumpEmergencyCount j s3)
      | (none, s3) => emergencyEnqueue cfg tok1 s3
    else emergencyEnqueue cfg tok1 s2

/-- `handleEmergency` (`src/events/emergencyHandler.ts`), with the reshuffler
and token map present when `withReshuffle` is true.  Returns `none` for the
thrown non-emergency rejection; otherwise `some (allocatedImmediately, state)`. -/
def handleEmergency (cfg : DoctorCfg) (now : Int) (withReshuffle : Bool) (tok : Token)
    (st : EngineState) : Option (Bool × EngineState) :=
  if tok.source ≠ PatientSource.EMERGENCY then none
  else
    let tok1 := { tok with priorityScore := calculatePriority tok }
    let st1 : EngineState :=
      { st with tokens := updateTok (fun t =>
          { t with priorityScore := calculatePriority tok }) st.tokens tok.id }
    some (match cfg.maxEmergenciesPerDay with
      | some limit =>
        if countDailyEmergencies st1.slots ≥ limit then emergencyEnqueue cfg tok1 st1
        else emergencyAllocPath cfg now withReshuffle tok1 st1
      | none => emergencyAllocPath cfg now withReshuffle tok1 st1)

/-- The delay scan of `handleDoctorDelay` (`src/events/doctorDelayHandler.ts`):
walk the slots from position `i`, blocking each slot that starts before the
delay end and stopping at the first that does not; report the first affected
index. -/
def delayScan (delayEnd : Int) (i : Nat) : List Slot → List Slot × Option Nat
  | [] => ([], none)
  | s :: rest =>
    if s.startTime < delayEnd then
      let r := delayScan delayEnd (i + 1) rest
      ({ s with status := SlotStatus.BLOCKED } :: r.1, some i)
    else (s :: rest, none)

/-- `handleDoctorDelay` (`src/events/doctorDelayHandler.ts`). -/
def handleDoctorDelay (cfg : DoctorCfg) (now : Int) (delayMinutes : Int) (st : EngineState) :
    List String × EngineState :=
  let delayEnd := now + delayMinutes * 60000
  let r := delayScan delayEnd 0 st.slots
  match r.2 with
  | none => ([], st)
  | some firstAffected => reallocate cfg now firstAffected { st with slots := r.1 }

/-! ## Basic lemmas about the arena, slot and queue helpers -/

theorem lookupTok_updateTok (f : Token → Token) (a : List (String × Token)) (id x : String) :
    lookupTok (updateTok f a id) x =
      if x = id then (lookupTok a id).map f else lookupTok a x := by
  induction a with
  | nil => by_cases hx : x = id <;> simp [updateTok, lookupTok, hx]
  | cons p rest ih =>
    obtain ⟨k, v⟩ := p
    by_cases hk : k = id
    · subst hk
      by_cases hx : x = k
      · subst hx; simp [updateTok, lookupTok]
      · have hkx : ¬k = x := fun h => hx h.symm
        simp [updateTok, lookupTok, hx, hkx]
    · by_cases hx : x = k
      · subst hx
        have hxid : ¬x = id := hk
        simp [updateTok, lookupTok, hk, hxid]
      · have hkx : ¬k = x := fun h => hx h.symm
        simp [updateTok, lookupTok, hk, hkx, ih]

theorem lookupTok_updateTok_isSome (f : Token → Token) (a : List (String × Token)) (id x : String) :
    (lookupTok (updateTok f a id) x).isSome = (lookupTok a x).isSome := by
  rw [lookupTok_updateTok]
  split
  · next h => subst h; cases lookupTok a x <;> rfl
  · rfl

theorem length_updAt (f : Slot → Slot) (i : Nat) (l : List Slot) :
    (updAt f i l).length = l.length := by
  induction l generalizing i with
  | nil => cases i <;> rfl
  | cons s rest ih =>
    cases i with
    | zero => rfl
    | succ n => simpa [updAt] using ih n

theorem get?_updAt (f : Slot → Slot) (i : Nat) (l : List Slot) (j : Nat) :
    (updAt f i l).get? j = if j = i then (l.get? i).map f else l.get? j := by
  induction l generalizing i j with
  | nil => cases i <;> cases j <;> simp [updAt]
  | cons s rest ih =>
    cases i with
    | zero => cases j <;> simp [updAt]
    | succ n =>
      cases j with
      | zero => simp [updAt]
      | succ m => simpa [updAt, Nat.succ_inj] using ih n m

theorem mem_updAt {f : Slot → Slot} {i : Nat} {l : List Slot} {s' : Slot}
    (h : s' ∈ updAt f i l) : s' ∈ l ∨ ∃ s, l.get? i = some s ∧ s' = f s := by
  induction l generalizing i with
  | nil => cases i <;> simp [updAt] at h
  | cons s rest ih =>
    cases i with
    | zero =>
      rcases List.mem_cons.mp h with h | h
      · exact Or.inr ⟨s, rfl, h⟩
      · exact Or.inl (List.mem_cons_of_mem _ h)
    | succ n =>
      rcases List.mem_cons.mp h with h | h
      · exact Or.inl (h ▸ List.mem_cons_self _ _)
      · rcases ih h with h | ⟨t, ht, rfl⟩
        · exact Or.inl (List.mem_cons_of_mem _ h)
        · exact Or.inr ⟨t, ht, rfl⟩

theorem length_removeFirst_le (l : List String) (id : String) :
    (removeFirst l id).length ≤ l.length := by
  induction l with
  | nil => exact Nat.le_refl _
  | cons x rest ih =>
    by_cases hx : x = id
    · simp only [removeFirst, if_pos hx, List.length_cons]
      exact Nat.le_succ _
    · simp only [removeFirst, if_neg hx, List.length_cons]
      exact Nat.succ_le_succ ih

theorem length_removeFirst_mem {l : List String} {id : String} (h : id ∈ l) :
    (removeFirst l id).length + 1 = l.length := by
  induction l with
  | nil => cases h
  | cons x rest ih =>
    by_cases hx : x = id
    · simp [removeFirst, hx]
    · have hmem : id ∈ rest := by
        rcases List.mem_cons.mp h with h1 | h1
        · exact absurd h1.symm hx
        · exact h1
      simp [removeFirst, hx, ih hmem]

theorem mem_removeFirst {l : List String} {id x : String} (h : x ∈ removeFirst l id) : x ∈ l := by
  induction l with
  | nil => simp [removeFirst] at h
  | cons y rest ih =>
    by_cases hy : y = id
    · simp only [removeFirst, if_pos hy] at h
      exact List.mem_cons_of_mem _ h
    · simp only [removeFirst, if_neg hy] at h
      rcases List.mem_cons.mp h with h | h
      · exact h ▸ List.mem_cons_self _ _
      · exact List.mem_cons_of_mem _ (ih h)

/-! ## The capacity invariant and its preservation -/

/-- The capacity invariant on a slot list: no slot holds more occupants than
its capacity. -/
def SlotsCapOk (slots : List Slot) : Prop :=
  ∀ s ∈ slots, s.allocatedTokenIds.length ≤ s.capacity

/-- The capacity invariant of the spec: for all slots, occupant count ≤
capacity. -/
def CapacityInv (st : EngineState) : Prop :=
  SlotsCapOk st.slots

instance (slots : List Slot) : Decidable (SlotsCapOk slots) :=
  inferInstanceAs (Decidable (∀ s ∈ slots, s.allocatedTokenIds.length ≤ s.capacity))

instance (st : EngineState) : Decidable (CapacityInv st) :=
  inferInstanceAs (Decidable (∀ s ∈ st.slots, s.allocatedTokenIds.length ≤ s.capacity))

theorem slotsCapOk_allocateTokenSlots {tokId : String} {slots : List Slot}
    {i : Nat} {slots' : List Slot} (hInv : SlotsCapOk slots)
    (h : allocateTokenSlots tokId slots = some (i, slots')) : SlotsCapOk slots' := by
  induction slots generalizing i slots' with
  | nil => simp [allocateTokenSlots] at h
  | cons s rest ih =>
    have hs := hInv s (List.mem_cons_self _ _)
    have hrest : SlotsCapOk rest := fun t ht => hInv t (List.mem_cons_of_mem _ ht)
    rw [allocateTokenSlots] at h
    split at h
    · next hc =>
      injection h with h
      injection h with h1 h2
      subst h2
      intro t ht
      rcases List.mem_cons.mp ht with ht | ht
      · subst ht
        simpa [pushOccFn] using Nat.succ_le_of_lt hc.2
      · exact hrest t ht
    · split at h
      · cases h
      · next j rest' hrec =>
        injection h with h
        injection h with h1 h2
        subst h2
        intro t ht
        rcases List.mem_cons.mp ht with ht | ht
        · exact ht ▸ hs
        · exact ih hrest hrec t ht

theorem slotsCapOk_updAt {f : Slot → Slot} {i : Nat} {slots : List Slot}
    (hInv : SlotsCapOk slots)
    (hf : ∀ s, slots.get? i = some s → (f s).allocatedTokenIds.length ≤ (f s).capacity) :
    SlotsCapOk (updAt f i slots) := by
  intro t ht
  rcases mem_updAt ht with h | ⟨s, hs, rfl⟩
  · exact hInv t h
  · exact hf s hs

theorem slotsCapOk_quotaScan {tokId : String} {maxPerSlot : Nat} {slots : List Slot}
    {i : Nat} {slots' : List Slot} (hInv : SlotsCapOk slots)
    (h : quotaScan tokId maxPerSlot slots = some (i, slots')) : SlotsCapOk slots' := by
  induction slots generalizing i slots' with
  | nil => simp [quotaScan] at h
  | cons s rest ih =>
    have hs := hInv s (List.mem_cons_self _ _)
    have hrest : SlotsCapOk rest := fun t ht => hInv t (List.mem_cons_of_mem _ ht)
    rw [quotaScan] at h
    split at h
    · next hc =>
      injection h with h
      injection h with h1 h2
      subst h2
      intro t ht
      rcases List.mem_cons.mp ht with ht | ht
      · subst ht
        simpa [pushOccFn] using Nat.succ_le_of_lt hc.2.1
      · exact hrest t ht
    · split at h
      · cases h
      · next j rest' hrec =>
        injection h with h
        injection h with h1 h2
        subst h2
        intro t ht
        rcases List.mem_cons.mp ht with ht | ht
        · exact ht ▸ hs
        · exact ih hrest hrec t ht

theorem capacityInv_allocateToken (tok : Token) (cfg : DoctorCfg) (now : Int) (st : EngineState)
    (h : CapacityInv st) : CapacityInv (allocateToken tok cfg now st).2 := by
  unfold allocateToken
  cases hrec : allocateTokenSlots tok.id st.slots with
  | none => exact h
  | some p =>
    obtain ⟨i, slots'⟩ := p
    exact slotsCapOk_allocateTokenSlots h hrec

theorem capacityInv_enqueueTok (tok : Token) (st : EngineState) (h : CapacityInv st) :
    CapacityInv (enqueueTok tok st) := h

theorem capacityInv_drainLoop (cfg : DoctorCfg) (now : Int) (fuel : Nat) (st : EngineState)
    (h : CapacityInv st) : CapacityInv (drainLoop cfg now fuel st).2 := by
  induction fuel generalizing st with
  | zero => exact h
  | succ n ih =>
    cases hq : st.queue with
    | nil => simp only [drainLoop, hq]; exact h
    | cons id rest =>
      cases hl : lookupTok st.tokens id with
      | none => simp only [drainLoop, hq, hl]; exact h
      | some tok =>
        have h1 : CapacityInv ({ st with queue := rest } : EngineState) := h
        have h2 : CapacityInv (allocateToken tok cfg now { st with queue := rest }).2 :=
          capacityInv_allocateToken tok cfg now { st with queue := rest } h1
        cases halloc : allocateToken tok cfg now { st with queue := rest } with
        | mk o st2 =>
          rw [halloc] at h2
          cases o with
          | none =>
            simp only [drainLoop, hq, hl, halloc]
            exact capacityInv_enqueueTok tok st2 h2
          | some i =>
            simp only [drainLoop, hq, hl, halloc]
            exact ih st2 h2

theorem capacityInv_allocateFromQueue (cfg : DoctorCfg) (now : Int) (st : EngineState)
    (h : CapacityInv st) : CapacityInv (allocateFromQueue cfg now st).2 :=
  capacityInv_drainLoop cfg now st.queue.length st h

theorem slotsCapOk_collectAndClear (arena : List (String × Token)) (l : List Slot) :
    SlotsCapOk (collectAndClear arena l).2.1 := by
  induction l generalizing arena with
  | nil => intro s hs; simp [collectAndClear] at hs
  | cons s rest ih =>
    intro t ht
    rw [collectAndClear] at ht
    rcases List.mem_cons.mp ht with ht | ht
    · subst ht; exact Nat.zero_le _
    · exact ih _ t ht

theorem requeueIds_slots_tokens (ids : List String) (st : EngineState) :
    (requeueIds ids st).slots = st.slots ∧ (requeueIds ids st).tokens = st.tokens := by
  induction ids generalizing st with
  | nil => exact ⟨rfl, rfl⟩
  | cons id rest ih =>
    show (requeueIds rest _).slots = _ ∧ (requeueIds rest _).tokens = _
    cases hl : lookupTok st.tokens id with
    | none =>
      have := ih st
      simp only [requeueIds, List.foldl, hl] at *
      exact this
    | some tok =>
      have := ih (enqueueTok tok st)
      simp only [requeueIds, List.foldl, hl] at *
      exact this

theorem capacityInv_reallocate (cfg : DoctorCfg) (now : Int) (idx : Nat) (st : EngineState)
    (h : CapacityInv st) : CapacityInv (reallocate cfg now idx st).2 := by
  unfold reallocate
  apply capacityInv_drainLoop
  show CapacityInv (requeueIds _ _)
  have hrq := requeueIds_slots_tokens (reallocateClear idx st).1 (reallocateClear idx st).2
  show SlotsCapOk _
  rw [hrq.1]
  show SlotsCapOk (st.slots.take idx ++ (collectAndClear st.tokens (st.slots.drop idx)).2.1)
  intro s hs
  rcases List.mem_append.mp hs with hs | hs
  · exact h s (List.take_subset _ _ hs)
  · exact slotsCapOk_collectAndClear _ _ s hs

theorem capacityInv_freeTokenFromSlot (tok : Token) (st : EngineState)
    (h : CapacityInv st) : CapacityInv (freeTokenFromSlot tok st) := by
  cases hsi : tok.slotIndex with
  | none => simp only [freeTokenFromSlot, hsi]; exact h
  | some i =>
    cases hget : st.slots.get? i with
    | none => simp only [freeTokenFromSlot, hsi, hget]; exact h
    | some slot =>
      simp only [freeTokenFromSlot, hsi, hget]
      by_cases hmem : tok.id ∈ slot.allocatedTokenIds
      · rw [if_pos hmem]
        show SlotsCapOk (updAt _ i st.slots)
        apply slotsCapOk_updAt h
        intro s hs
        rw [hget] at hs
        injection hs with hs
        subst hs
        exact Nat.le_trans (length_removeFirst_le _ _) (h slot (List.get?_mem hget))
      · rw [if_neg hmem]
        exact h

theorem capacityInv_allocateEmergencyToSlot (emTok : Token) (cfg : DoctorCfg) (now : Int)
    (idx : Nat) (st : EngineState) (h : CapacityInv st) :
    CapacityInv (allocateEmergencyToSlot emTok cfg now idx st).2 := by
  cases hget : st.slots.get? idx with
  | none => simp only [allocateEmergencyToSlot, hget]; exact h
  | some slot =>
    simp only [allocateEmergencyToSlot, hget]
    by_cases hcap : slot.allocatedTokenIds.length ≥ slot.capacity
    · rw [if_pos hcap]
      exact h
    · rw [if_neg hcap]
      show SlotsCapOk (updAt _ idx st.slots)
      apply slotsCapOk_updAt h
      intro s hs
      rw [hget] at hs
      injection hs with hs
      subst hs
      simpa [pushOccFn] using Nat.succ_le_of_lt (Nat.lt_of_not_le hcap)

theorem slotsCapOk_pushAt {slots : List Slot} {i : Nat} {si : Slot} (tokId : String)
    (hInv : SlotsCapOk slots) (hget : slots.get? i = some si)
    (hcap : si.allocatedTokenIds.length < si.capacity) :
    SlotsCapOk (updAt (pushOccFn tokId) i slots) := by
  apply slotsCapOk_updAt hInv
  intro s hs
  rw [hget] at hs
  injection hs with hs
  subst hs
  simpa [pushOccFn] using Nat.succ_le_of_lt hcap

theorem capacityInv_shiftToken (tok : Token) (fromIdx toIdx : Nat) (now : Int) (st : EngineState)
    (sj : Slot) (h : CapacityInv st) (hget : st.slots.get? toIdx = some sj)
    (hcap : sj.allocatedTokenIds.length < sj.capacity) :
    CapacityInv (shiftToken tok fromIdx toIdx now st) := by
  cases hfrom : st.slots.get? fromIdx with
  | none => simp only [shiftToken, hfrom]; exact h
  | some fromSlot =>
    simp only [shiftToken, hfrom]
    by_cases hmem : tok.id ∈ fromSlot.allocatedTokenIds
    · rw [if_pos hmem]
      have hInv1 : SlotsCapOk
          (updAt (removeOccFn (removeFirst fromSlot.allocatedTokenIds tok.id)) fromIdx st.slots) := by
        apply slotsCapOk_updAt h
        intro s hs
        rw [hfrom] at hs
        injection hs with hs
        subst hs
        simpa [removeOccFn] using
          Nat.le_trans (length_removeFirst_le _ _) (h fromSlot (List.get?_mem hfrom))
      by_cases hij : toIdx = fromIdx
      · subst hij
        have hsj : sj = fromSlot := by
          rw [hget] at hfrom; injection hfrom
        subst hsj
        have hget1 : (updAt (removeOccFn (removeFirst sj.allocatedTokenIds tok.id)) toIdx
            st.slots).get? toIdx =
            some (removeOccFn (removeFirst sj.allocatedTokenIds tok.id) sj) := by
          rw [get?_updAt, if_pos rfl, hget]
          rfl
        simp only [hget1]
        have hlen := length_removeFirst_mem hmem
        apply slotsCapOk_pushAt tok.id hInv1 hget1
        simp only [removeOccFn]
        omega
      · have hget1 : (updAt (removeOccFn (removeFirst fromSlot.allocatedTokenIds tok.id)) fromIdx
            st.slots).get? toIdx = some sj := by
          rw [get?_updAt, if_neg hij, hget]
        simp only [hget1]
        exact slotsCapOk_pushAt tok.id hInv1 hget1 hcap
    · rw [if_neg hmem]
      simp only [hget]
      exact slotsCapOk_pushAt tok.id h hget hcap

theorem firstAvail_spec {slots : List Slot} {idxs : List Nat} {j : Nat}
    (h : firstAvail slots idxs = some j) :
    ∃ s, slots.get? j = some s ∧ s.status = SlotStatus.AVAILABLE ∧
      s.allocatedTokenIds.length < s.capacity := by
  have hp := List.find?_some h
  cases hg : slots.get? j with
  | none =>
    have hg' := hg
    rw [List.get?_eq_getElem?] at hg'
    simp [hg'] at hp
  | some s =>
    have hg' := hg
    rw [List.get?_eq_getElem?] at hg'
    simp [hg'] at hp
    exact ⟨s, rfl, hp.1, hp.2⟩

theorem capacityInv_reshuffleGo (cfg : DoctorCfg) (now : Int) (emTok : Token) (st : EngineState)
    (idxs : List Nat) (h : CapacityInv st) :
    CapacityInv (reshuffleGo cfg now emTok st idxs).2 := by
  induction idxs with
  | nil => exact h
  | cons i rest ih =>
    cases hg : st.slots.get? i with
    | none => simp only [reshuffleGo, hg]; exact h
    | some target =>
      simp only [reshuffleGo, hg]
      by_cases hb : target.status = SlotStatus.BLOCKED
      · rw [if_pos hb]; exact ih
      · rw [if_neg hb]
        by_cases hcap : target.allocatedTokenIds.length < target.capacity
        · rw [if_pos hcap]
          exact capacityInv_allocateEmergencyToSlot emTok cfg now i st h
        · rw [if_neg hcap]
          cases hf : findMostFlexibleToken st.tokens target.allocatedTokenIds with
          | none => simp only [hf]; exact ih
          | some flex =>
            cases hn : findNearbySlotWithCapacity st.slots i 2 with
            | none => simp only [hf, hn]; exact ih
            | some dest =>
              simp only [hf, hn]
              obtain ⟨s, hs, hsA, hsc⟩ := firstAvail_spec
                (show firstAvail st.slots (nearbyIdxs st.slots.length i 2) = some dest from hn)
              exact capacityInv_allocateEmergencyToSlot emTok cfg now i _
                (capacityInv_shiftToken flex i dest now st s h hs hsc)

theorem capacityInv_attemptReshuffle (cfg : DoctorCfg) (now : Int) (emTok : Token)
    (st : EngineState) (h : CapacityInv st) : CapacityInv (attemptReshuffle cfg now emTok st).2 :=
  capacityInv_reshuffleGo cfg now emTok st (List.range st.slots.length) h

theorem capacityInv_allocateWithQuotaCheck (tok : Token) (cfg : DoctorCfg) (now : Int)
    (st : EngineState) (h : CapacityInv st) : CapacityInv (allocateWithQuotaCheck tok cfg now st).2 := by
  unfold allocateWithQuotaCheck
  cases hrec : quotaScan tok.id (cfg.maxEmergenciesPerSlot.getD 1) st.slots with
  | none => exact h
  | some p =>
    obtain ⟨i, slots'⟩ := p
    exact slotsCapOk_quotaScan h hrec

theorem capacityInv_bumpEmergencyCount (i : Nat) (st : EngineState) (h : CapacityInv st) :
    CapacityInv (bumpEmergencyCount i st) := by
  apply slotsCapOk_updAt h
  intro s hs
  exact h s (List.get?_mem hs)

theorem capacityInv_emergencyEnqueue (cfg : DoctorCfg) (tok1 : Token) (st : EngineState)
    (h : CapacityInv st) : CapacityInv (emergencyEnqueue cfg tok1 st).2 := h

theorem capacityInv_emergencyAllocPath (cfg : DoctorCfg) (now : Int) (wr : Bool) (tok1 : Token)
    (st : EngineState) (h : CapacityInv st) :
    CapacityInv (emergencyAllocPath cfg now wr tok1 st).2 := by
  have hq := capacityInv_allocateWithQuotaCheck tok1 cfg now st h
  cases hrec : allocateWithQuotaCheck tok1 cfg now st with
  | mk o s2 =>
    rw [hrec] at hq
    cases o with
    | some i =>
      simp only [emergencyAllocPath, hrec]
      exact capacityInv_bumpEmergencyCount i s2 hq
    | none =>
      simp only [emergencyAllocPath, hrec]
      cases wr with
      | false => exact capacityInv_emergencyEnqueue cfg tok1 s2 hq
      | true =>
        have hr := capacityInv_attemptReshuffle cfg now tok1 s2 hq
        cases hrs : attemptReshuffle cfg now tok1 s2 with
        | mk o3 s3 =>
          rw [hrs] at hr
          cases o3 with
          | some j =>
            simp only [hrs]
            exact capacityInv_bumpEmergencyCount j s3 hr
          | none =>
            simp only [hrs]
            exact capacityInv_emergencyEnqueue cfg tok1 s3 hr

theorem capacityInv_handleEmergency (cfg : DoctorCfg) (now : Int) (wr : Bool) (tok : Token)
    (st : EngineState) (res : Bool × EngineState) (h : CapacityInv st)
    (hres : handleEmergency cfg now wr tok st = some res) : CapacityInv res.2 := by
  by_cases hsrc : tok.source ≠ PatientSource.EMERGENCY
  · simp only [handleEmergency, if_pos hsrc] at hres
    cases hres
  · simp only [handleEmergency, if_neg hsrc, Option.some.injEq] at hres
    subst hres
    have h1 : CapacityInv ({ st with tokens := updateTok (fun t =>
        { t with priorityScore := calculatePriority tok }) st.tokens tok.id } : EngineState) := h
    cases hmax : cfg.maxEmergenciesPerDay with
    | none =>
      simp only [hmax]
      exact capacityInv_emergencyAllocPath cfg now wr _ _ h1
    | some limit =>
      simp only [hmax]
      split
      · exact capacityInv_emergencyEnqueue cfg _ _ h1
      · exact capacityInv_emergencyAllocPath cfg now wr _ _ h1

/-! ## Drain loop: the queue strictly shrinks, fuel is irrelevant beyond the
queue length, and the allocation count is bounded -/

theorem allocateToken_queue (tok : Token) (cfg : DoctorCfg) (now : Int) (st : EngineState) :
    (allocateToken tok cfg now st).2.queue = st.queue := by
  unfold allocateToken
  cases allocateTokenSlots tok.id st.slots with
  | none => rfl
  | some p => obtain ⟨i, slots'⟩ := p; rfl

theorem allocateToken_none_eq {tok : Token} {cfg : DoctorCfg} {now : Int} {st st' : EngineState}
    (h : allocateToken tok cfg now st = (none, st')) : st' = st := by
  unfold allocateToken at h
  cases hrec : allocateTokenSlots tok.id st.slots with
  | none =>
    rw [hrec] at h
    exact (Prod.mk.injEq _ _ _ _ ▸ h).2.symm ▸ rfl
  | some p =>
    obtain ⟨i, slots'⟩ := p
    rw [hrec] at h
    have := congrArg Prod.fst h
    simp at this

theorem drainLoop_congr (cfg : DoctorCfg) (now : Int) :
    ∀ (fuel fuel' : Nat) (st : EngineState), st.queue.length ≤ fuel →
      st.queue.length ≤ fuel' → drainLoop cfg now fuel st = drainLoop cfg now fuel' st := by
  intro fuel
  induction fuel with
  | zero =>
    intro fuel' st h h'
    have hq : st.queue = [] := List.length_eq_zero.mp (Nat.le_zero.mp h)
    cases fuel' with
    | zero => rfl
    | succ m => simp only [drainLoop, hq]
  | succ n ih =>
    intro fuel' st h h'
    cases fuel' with
    | zero =>
      have hq : st.queue = [] := List.length_eq_zero.mp (Nat.le_zero.mp h')
      simp only [drainLoop, hq]
    | succ m =>
      cases hq : st.queue with
      | nil => simp only [drainLoop, hq]
      | cons id rest =>
        cases hl : lookupTok st.tokens id with
        | none => simp only [drainLoop, hq, hl]
        | some tok =>
          cases halloc : allocateToken tok cfg now { st with queue := rest } with
          | mk o st2 =>
            have hq2 : st2.queue = rest := by
              have := allocateToken_queue tok cfg now { st with queue := rest }
              rw [halloc] at this
              exact this
            cases o with
            | none => simp only [drainLoop, hq, hl, halloc]
            | some i =>
              simp only [drainLoop, hq, hl, halloc]
              have h2 : st2.queue.length ≤ n := by
                rw [hq2]
                rw [hq] at h
                exact Nat.le_of_succ_le_succ (by simpa using h)
              have h2' : st2.queue.length ≤ m := by
                rw [hq2]
                rw [hq] at h'
                exact Nat.le_of_succ_le_succ (by simpa using h')
              rw [ih m st2 h2 h2']

theorem drainLoop_count_le (cfg : DoctorCfg) (now : Int) :
    ∀ (fuel : Nat) (st : EngineState), (drainLoop cfg now fuel st).1 ≤ st.queue.length := by
  intro fuel
  induction fuel with
  | zero => intro st; exact Nat.zero_le _
  | succ n ih =>
    intro st
    cases hq : st.queue with
    | nil => simp [drainLoop, hq]
    | cons id rest =>
      cases hl : lookupTok st.tokens id with
      | none => simp [drainLoop, hq, hl]
      | some tok =>
        cases halloc : allocateToken tok cfg now { st with queue := rest } with
        | mk o st2 =>
          have hq2 : st2.queue = rest := by
            have := allocateToken_queue tok cfg now { st with queue := rest }
            rw [halloc] at this
            exact this
          cases o with
          | none => simp [drainLoop, hq, hl, halloc]
          | some i =>
            simp only [drainLoop, hq, hl, halloc, List.length_cons]
            have := ih st2
            rw [hq2] at this
            exact Nat.succ_le_succ this

/-! ## Well-formedness predicates tying the queue, the arena and the slots
together (the object-graph facts that hold by construction in TypeScript) -/

/-- Every queued id resolves in the arena (in TypeScript the queue holds the
token objects themselves, so resolution cannot fail). -/
def WFQueue (st : EngineState) : Prop :=
  ∀ id ∈ st.queue, (lookupTok st.tokens id).isSome = true

/-- Every arena binding's value carries its own key as `id` (the maps are only
ever populated with `tokens.set(token.id, token)`). -/
def ArenaKeyed (tks : List (String × Token)) : Prop :=
  ∀ k t, (k, t) ∈ tks → t.id = k

/-- The queue is in descending-priority order (scores resolved through the
arena). -/
def QueueSorted (st : EngineState) : Prop :=
  st.queue.Pairwise (fun a b => scoreOf st.tokens b ≤ scoreOf st.tokens a)

instance (st : EngineState) : Decidable (WFQueue st) :=
  inferInstanceAs (Decidable (∀ id ∈ st.queue, (lookupTok st.tokens id).isSome = true))

instance (tks : List (String × Token)) : Decidable (ArenaKeyed tks) :=
  decidable_of_iff (∀ p ∈ tks, (Prod.snd p).id = Prod.fst p)
    ⟨fun h k t hm => h (k, t) hm, fun h p hm => h p.1 p.2 hm⟩

instance (st : EngineState) : Decidable (QueueSorted st) :=
  inferInstanceAs
    (Decidable (st.queue.Pairwise (fun a b => scoreOf st.tokens b ≤ scoreOf st.tokens a)))

theorem lookupTok_some_mem {tks : List (String × Token)} {id : String} {t : Token}
    (h : lookupTok tks id = some t) : (id, t) ∈ tks := by
  induction tks with
  | nil => cases h
  | cons p rest ih =>
    obtain ⟨k, v⟩ := p
    by_cases hk : k = id
    · subst hk
      simp only [lookupTok, if_pos rfl] at h
      injection h with h
      subst h
      exact List.mem_cons_self _ _
    · simp only [lookupTok, if_neg hk] at h
      exact List.mem_cons_of_mem _ (ih h)

theorem arenaKeyed_updateTok {tks : List (String × Token)} {f : Token → Token} {id : String}
    (hk : ArenaKeyed tks) (hf : ∀ t, (f t).id = t.id) : ArenaKeyed (updateTok f tks id) := by
  induction tks with
  | nil => intro k t hm; cases hm
  | cons p rest ih =>
    obtain ⟨k0, v0⟩ := p
    have hk0 : ArenaKeyed rest := fun k t hm => hk k t (List.mem_cons_of_mem _ hm)
    intro k t hm
    by_cases h0 : k0 = id
    · rw [updateTok, if_pos h0] at hm
      rcases List.mem_cons.mp hm with hm | hm
      · cases hm
        rw [hf v0]
        exact hk _ v0 (List.mem_cons_self _ _)
      · exact hk0 k t hm
    · rw [updateTok, if_neg h0] at hm
      rcases List.mem_cons.mp hm with hm | hm
      · cases hm
        exact hk _ _ (List.mem_cons_self _ _)
      · exact ih hk0 k t hm

theorem scoreOf_updateTok {tks : List (String × Token)} {f : Token → Token} {id : String}
    (hf : ∀ t, (f t).priorityScore = t.priorityScore) (x : String) :
    scoreOf (updateTok f tks id) x = scoreOf tks x := by
  unfold scoreOf
  rw [lookupTok_updateTok]
  by_cases hx : x = id
  · rw [if_pos hx]
    subst hx
    cases lookupTok tks x with
    | none => rfl
    | some t => simp [hf t]
  · rw [if_neg hx]

theorem insertByScore_perm (tks : List (String × Token)) (tok : Token) (l : List String) :
    (insertByScore tks tok l).Perm (tok.id :: l) := by
  induction l with
  | nil => exact List.Perm.refl _
  | cons id rest ih =>
    by_cases hgt : tok.priorityScore > scoreOf tks id
    · rw [insertByScore, if_pos hgt]
    · rw [insertByScore, if_neg hgt]
      exact (ih.cons id).trans (List.Perm.swap _ _ _)

theorem mem_insertByScore {tks : List (String × Token)} {tok : Token} {l : List String}
    {x : String} (h : x ∈ insertByScore tks tok l) : x = tok.id ∨ x ∈ l :=
  List.mem_cons.mp ((insertByScore_perm tks tok l).mem_iff.mp h)

theorem pairwise_insertByScore {tks : List (String × Token)} {tok : Token} {l : List String}
    (hid : scoreOf tks tok.id = tok.priorityScore)
    (h : l.Pairwise (fun a b => scoreOf tks b ≤ scoreOf tks a)) :
    (insertByScore tks tok l).Pairwise (fun a b => scoreOf tks b ≤ scoreOf tks a) := by
  induction l with
  | nil => simp [insertByScore]
  | cons id rest ih =>
    by_cases hgt : tok.priorityScore > scoreOf tks id
    · rw [insertByScore, if_pos hgt]
      refine List.Pairwise.cons ?_ h
      intro x hx
      rw [hid]
      rcases List.mem_cons.mp hx with hx | hx
      · subst hx
        exact le_of_lt hgt
      · exact le_trans (List.rel_of_pairwise_cons h hx) (le_of_lt hgt)
    · rw [insertByScore, if_neg hgt]
      refine List.Pairwise.cons ?_ (ih (List.pairwise_cons.mp h).2)
      intro x hx
      rcases mem_insertByScore hx with hx | hx
      · subst hx
        rw [hid]
        exact not_lt.mp hgt
      · exact List.rel_of_pairwise_cons h hx

/-! ## How the drain loop evolves slots and scores -/

/-- How a single drain pass may change a slot: fixed fields untouched, the
occupant list only appended to, status either unchanged or flipped from
`AVAILABLE` to `FULL`. -/
def SlotTouchOk (s s' : Slot) : Prop :=
  s'.capacity = s.capacity ∧ s'.startTime = s.startTime ∧ s'.endTime = s.endTime ∧
    s'.emergencyCount = s.emergencyCount ∧
    (∃ extra, s'.allocatedTokenIds = s.allocatedTokenIds ++ extra) ∧
    (s'.status = s.status ∨ (s.status = SlotStatus.AVAILABLE ∧ s'.status = SlotStatus.FULL))

theorem slotTouchOk_refl (s : Slot) : SlotTouchOk s s :=
  ⟨rfl, rfl, rfl, rfl, ⟨[], (List.append_nil _).symm⟩, Or.inl rfl⟩

theorem slotTouchOk_trans {s1 s2 s3 : Slot} (h12 : SlotTouchOk s1 s2) (h23 : SlotTouchOk s2 s3) :
    SlotTouchOk s1 s3 := by
  obtain ⟨hc, hs, he, hm, ⟨e1, ho⟩, hst⟩ := h12
  obtain ⟨hc', hs', he', hm', ⟨e2, ho'⟩, hst'⟩ := h23
  refine ⟨hc'.trans hc, hs'.trans hs, he'.trans he, hm'.trans hm,
    ⟨e1 ++ e2, by rw [ho', ho, List.append_assoc]⟩, ?_⟩
  rcases hst' with hst' | ⟨ha', hf'⟩
  · rcases hst with hst | ⟨ha, hf⟩
    · exact Or.inl (hst'.trans hst)
    · exact Or.inr ⟨ha, hst' ▸ hf⟩
  · rcases hst with hst | ⟨ha, hf⟩
    · exact Or.inr ⟨hst ▸ ha', hf'⟩
    · rw [hf] at ha'; cases ha'

theorem forall₂_refl_of (R : Slot → Slot → Prop) (hR : ∀ s, R s s) (l : List Slot) :
    List.Forall₂ R l l := by
  induction l with
  | nil => exact List.Forall₂.nil
  | cons s rest ih => exact List.Forall₂.cons (hR s) ih

theorem forall₂_trans_of {R : Slot → Slot → Prop}
    (hR : ∀ a b c, R a b → R b c → R a c) :
    ∀ {l1 l2 l3 : List Slot}, List.Forall₂ R l1 l2 → List.Forall₂ R l2 l3 →
      List.Forall₂ R l1 l3 := by
  intro l1 l2 l3 h12 h23
  induction h12 generalizing l3 with
  | nil => cases h23; exact List.Forall₂.nil
  | cons h hrest ih =>
    cases h23 with
    | cons h' hrest' => exact List.Forall₂.cons (hR _ _ _ h h') (ih hrest')

theorem forall₂_get? {R : Slot → Slot → Prop} :
    ∀ {l l' : List Slot}, List.Forall₂ R l l' → ∀ {i : Nat} {a : Slot},
      l.get? i = some a → ∃ b, l'.get? i = some b ∧ R a b := by
  intro l l' h
  induction h with
  | nil => intro i a ha; cases i <;> cases ha
  | cons hr hrest ih =>
    intro i a ha
    cases i with
    | zero =>
      injection ha with ha
      subst ha
      exact ⟨_, rfl, hr⟩
    | succ n => exact ih ha

theorem forall₂_updAt {R : Slot → Slot → Prop} {f : Slot → Slot} {i : Nat} {l : List Slot}
    (hR : ∀ s, R s s) (hf : ∀ s, l.get? i = some s → R s (f s)) :
    List.Forall₂ R l (updAt f i l) := by
  induction l generalizing i with
  | nil => cases i <;> exact List.Forall₂.nil
  | cons s rest ih =>
    cases i with
    | zero => exact List.Forall₂.cons (hf s rfl) (forall₂_refl_of R hR rest)
    | succ n => exact List.Forall₂.cons (hR s) (ih (fun t ht => hf t ht))

theorem allocateTokenSlots_spec {tokId : String} :
    ∀ {slots : List Slot} {i : Nat} {slots' : List Slot},
      allocateTokenSlots tokId slots = some (i, slots') →
      ∃ sj, slots.get? i = some sj ∧ sj.status = SlotStatus.AVAILABLE ∧
        sj.allocatedTokenIds.length < sj.capacity ∧ slots' = updAt (pushOccFn tokId) i slots := by
  intro slots
  induction slots with
  | nil => intro i slots' h; cases h
  | cons s rest ih =>
    intro i slots' h
    rw [allocateTokenSlots] at h
    split at h
    · next hc =>
      injection h with h
      injection h with h1 h2
      subst h1
      subst h2
      exact ⟨s, rfl, hc.1, hc.2, rfl⟩
    · split at h
      · cases h
      · next j rest' hrec =>
        injection h with h
        injection h with h1 h2
        subst h1
        subst h2
        obtain ⟨sj, hg, hA, hlen, hupd⟩ := ih hrec
        exact ⟨sj, hg, hA, hlen, by rw [hupd]; rfl⟩

theorem allocateToken_some_spec {tok : Token} {cfg : DoctorCfg} {now : Int} {st : EngineState}
    {i : Nat} {st' : EngineState} (h : allocateToken tok cfg now st = (some i, st')) :
    st'.tokens = updateTok (allocMark cfg i now) st.tokens tok.id ∧
    st'.queue = st.queue ∧
    ∃ sj, st.slots.get? i = some sj ∧ sj.status = SlotStatus.AVAILABLE ∧
      sj.allocatedTokenIds.length < sj.capacity ∧
      st'.slots = updAt (pushOccFn tok.id) i st.slots := by
  unfold allocateToken at h
  cases hrec : allocateTokenSlots tok.id st.slots with
  | none =>
    rw [hrec] at h
    have := congrArg Prod.fst h
    simp at this
  | some p =>
    obtain ⟨j, slots'⟩ := p
    rw [hrec] at h
    have h1 := congrArg Prod.fst h
    simp only at h1
    injection h1 with h1
    subst h1
    have h2 := congrArg Prod.snd h
    simp only at h2
    subst h2
    obtain ⟨sj, hg, hA, hlen, hupd⟩ := allocateTokenSlots_spec hrec
    exact ⟨rfl, rfl, sj, hg, hA, hlen, by rw [← hupd]⟩

theorem slotTouchOk_push {sj : Slot} (tokId : String) (hA : sj.status = SlotStatus.AVAILABLE) :
    SlotTouchOk sj (pushOccFn tokId sj) := by
  refine ⟨rfl, rfl, rfl, rfl, ⟨[tokId], rfl⟩, ?_⟩
  simp only [pushOccFn]
  split
  · exact Or.inr ⟨hA, rfl⟩
  · exact Or.inl rfl

theorem allocateToken_slots_touch (tok : Token) (cfg : DoctorCfg) (now : Int) (st : EngineState) :
    List.Forall₂ SlotTouchOk st.slots (allocateToken tok cfg now st).2.slots := by
  cases halloc : allocateToken tok cfg now st with
  | mk o st' =>
    cases o with
    | none =>
      rw [allocateToken_none_eq halloc]
      exact forall₂_refl_of _ slotTouchOk_refl _
    | some i =>
      obtain ⟨-, -, sj, hg, hA, -, hupd⟩ := allocateToken_some_spec halloc
      simp only [hupd]
      apply forall₂_updAt slotTouchOk_refl
      intro s hs
      rw [hg] at hs
      injection hs with hs
      subst hs
      exact slotTouchOk_push tok.id hA

theorem drainLoop_slots_touch (cfg : DoctorCfg) (now : Int) :
    ∀ (fuel : Nat) (st : EngineState),
      List.Forall₂ SlotTouchOk st.slots (drainLoop cfg now fuel st).2.slots := by
  intro fuel
  induction fuel with
  | zero => intro st; exact forall₂_refl_of _ slotTouchOk_refl _
  | succ n ih =>
    intro st
    cases hq : st.queue with
    | nil => simp only [drainLoop, hq]; exact forall₂_refl_of _ slotTouchOk_refl _
    | cons id rest =>
      cases hl : lookupTok st.tokens id with
      | none => simp only [drainLoop, hq, hl]; exact forall₂_refl_of _ slotTouchOk_refl _
      | some tok =>
        have htouch := allocateToken_slots_touch tok cfg now { st with queue := rest }
        cases halloc : allocateToken tok cfg now { st with queue := rest } with
        | mk o st2 =>
          rw [halloc] at htouch
          cases o with
          | none => simp only [drainLoop, hq, hl, halloc]; exact htouch
          | some i =>
            simp only [drainLoop, hq, hl, halloc]
            exact forall₂_trans_of (R := SlotTouchOk) (fun _ _ _ h1 h2 => slotTouchOk_trans h1 h2)
              htouch (ih st2)

theorem drainLoop_scoreOf (cfg : DoctorCfg) (now : Int) :
    ∀ (fuel : Nat) (st : EngineState) (x : String),
      scoreOf (drainLoop cfg now fuel st).2.tokens x = scoreOf st.tokens x := by
  intro fuel
  induction fuel with
  | zero => intro st x; rfl
  | succ n ih =>
    intro st x
    cases hq : st.queue with
    | nil => simp only [drainLoop, hq]
    | cons id rest =>
      cases hl : lookupTok st.tokens id with
      | none => simp only [drainLoop, hq, hl]
      | some tok =>
        cases halloc : allocateToken tok cfg now { st with queue := rest } with
        | mk o st2 =>
          have htoks : ∀ y, scoreOf st2.tokens y = scoreOf st.tokens y := by
            intro y
            cases o with
            | none => rw [allocateToken_none_eq halloc]
            | some i =>
              obtain ⟨htk, -, -⟩ := allocateToken_some_spec halloc
              rw [htk]
              exact scoreOf_updateTok (f := allocMark cfg i now) (fun t => rfl) y
          cases o with
          | none =>
            simp only [drainLoop, hq, hl, halloc]
            show scoreOf st2.tokens x = scoreOf st.tokens x
            exact htoks x
          | some i =>
            simp only [drainLoop, hq, hl, halloc]
            rw [ih st2 x]
            exact htoks x

/-- Master account of one full drain (`allocateFromQueue`): the tokens queued
beforehand split into a placed part — each placed id ends `ALLOCATED` into a
slot that holds it — and the remaining queue; arena entries of ids that were
not placed are untouched. -/
theorem drainLoop_master (cfg : DoctorCfg) (now : Int) :
    ∀ (fuel : Nat) (st : EngineState),
      st.queue.length ≤ fuel →
      WFQueue st →
      st.queue.Nodup →
      ArenaKeyed st.tokens →
      ∃ placed : List String,
        st.queue.Perm (placed ++ (drainLoop cfg now fuel st).2.queue) ∧
        (∀ id ∈ placed, ∃ t j sj',
          lookupTok st.tokens id = some t ∧
          lookupTok (drainLoop cfg now fuel st).2.tokens id = some (allocMark cfg j now t) ∧
          (drainLoop cfg now fuel st).2.slots.get? j = some sj' ∧
          id ∈ sj'.allocatedTokenIds) ∧
        (∀ id, id ∉ placed →
          lookupTok (drainLoop cfg now fuel st).2.tokens id = lookupTok st.tokens id) := by
  intro fuel
  induction fuel with
  | zero =>
    intro st hle hwf hnd hak
    have hq : st.queue = [] := List.length_eq_zero.mp (Nat.le_zero.mp hle)
    exact ⟨[], List.Perm.refl _, fun x hx => absurd hx (List.not_mem_nil x), fun x _ => rfl⟩
  | succ n ih =>
    intro st hle hwf hnd hak
    cases hq : st.queue with
    | nil =>
      refine ⟨[], ?_, fun x hx => absurd hx (List.not_mem_nil x), fun x _ => ?_⟩
      · simp only [drainLoop, hq, List.nil_append]
        exact List.Perm.refl _
      · simp only [drainLoop, hq]
    | cons id rest =>
      have hlk : (lookupTok st.tokens id).isSome = true :=
        hwf id (by rw [hq]; exact List.mem_cons_self _ _)
      obtain ⟨tok, hl⟩ := Option.isSome_iff_exists.mp hlk
      have hid : tok.id = id := hak id tok (lookupTok_some_mem hl)
      have hndrest : rest.Nodup := by rw [hq] at hnd; exact (List.nodup_cons.mp hnd).2
      have hidrest : id ∉ rest := by rw [hq] at hnd; exact (List.nodup_cons.mp hnd).1
      cases halloc : allocateToken tok cfg now { st with queue := rest } with
      | mk o st2 =>
        cases o with
        | none =>
          have hst2 : st2 = { st with queue := rest } := allocateToken_none_eq halloc
          refine ⟨[], ?_, fun x hx => absurd hx (List.not_mem_nil x), fun x _ => ?_⟩
          · simp only [drainLoop, hq, hl, halloc, List.nil_append]
            subst hst2
            show (id :: rest).Perm (insertByScore st.tokens tok rest)
            rw [← hid]
            exact (insertByScore_perm st.tokens tok rest).symm
          · simp only [drainLoop, hq, hl, halloc]
            subst hst2
            rfl
        | some i =>
          obtain ⟨htk0, hq20, sj, hg0, hA, hlencap, hslots0⟩ := allocateToken_some_spec halloc
          have htk : st2.tokens = updateTok (allocMark cfg i now) st.tokens tok.id := htk0
          have hq2 : st2.queue = rest := hq20
          have hg : st.slots.get? i = some sj := hg0
          have hslots : st2.slots = updAt (pushOccFn tok.id) i st.slots := hslots0
          have hle2 : st2.queue.length ≤ n := by
            rw [hq2]
            rw [hq] at hle
            exact Nat.le_of_succ_le_succ (by simpa using hle)
          have hwf2 : WFQueue st2 := by
            intro x hx
            rw [hq2] at hx
            rw [htk, lookupTok_updateTok_isSome]
            exact hwf x (by rw [hq]; exact List.mem_cons_of_mem _ hx)
          have hnd2 : st2.queue.Nodup := by rw [hq2]; exact hndrest
          have hak2 : ArenaKeyed st2.tokens := by
            rw [htk]
            exact arenaKeyed_updateTok hak (fun t => rfl)
          obtain ⟨placed, hperm, hplaced, huntouched⟩ := ih st2 hle2 hwf2 hnd2 hak2
          rw [hq2] at hperm
          have hplacedsub : ∀ x ∈ placed, x ∈ rest := by
            intro x hx
            exact hperm.symm.subset (List.mem_append.mpr (Or.inl hx))
          refine ⟨id :: placed, ?_, ?_, ?_⟩
          · simp only [drainLoop, hq, hl, halloc]
            exact hperm.cons id
          · intro x hx
            simp only [drainLoop, hq, hl, halloc]
            rcases List.mem_cons.mp hx with hx | hx
            · subst hx
              have hxnp : x ∉ placed := fun hmem => hidrest (hplacedsub x hmem)
              have hlk2 : lookupTok st2.tokens x = some (allocMark cfg i now tok) := by
                rw [htk, hid, lookupTok_updateTok, if_pos rfl, hl]
                rfl
              have hg2 : st2.slots.get? i = some (pushOccFn tok.id sj) := by
                rw [hslots, get?_updAt, if_pos rfl, hg]
                rfl
              obtain ⟨sj', hg3, hrel⟩ := forall₂_get? (drainLoop_slots_touch cfg now n st2) hg2
              obtain ⟨-, -, -, -, ⟨extra, hocc⟩, -⟩ := hrel
              refine ⟨tok, i, sj', hl, ?_, hg3, ?_⟩
              · rw [huntouched x hxnp, hlk2]
              · rw [hocc, hid]
                exact List.mem_append.mpr (Or.inl (List.mem_append.mpr (Or.inr
                  (List.mem_singleton.mpr rfl))))
            · obtain ⟨t, j, sj', ho, hf2, hgf, hmemf⟩ := hplaced x hx
              have hxid : x ≠ id := fun h => hidrest (h ▸ hplacedsub x hx)
              have ho' : lookupTok st.tokens x = some t := by
                rw [htk, lookupTok_updateTok, if_neg (by rw [hid]; exact hxid)] at ho
                exact ho
              exact ⟨t, j, sj', ho', hf2, hgf, hmemf⟩
          · intro x hxn
            have hxid : x ≠ id := fun h => hxn (h ▸ List.mem_cons_self _ _)
            have hxp : x ∉ placed := fun h => hxn (List.mem_cons_of_mem _ h)
            simp only [drainLoop, hq, hl, halloc]
            rw [huntouched x hxp, htk, lookupTok_updateTok, if_neg (by rw [hid]; exact hxid)]

theorem drainLoop_sorted (cfg : DoctorCfg) (now : Int) :
    ∀ (fuel : Nat) (st : EngineState), WFQueue st → ArenaKeyed st.tokens → QueueSorted st →
      QueueSorted (drainLoop cfg now fuel st).2 := by
  intro fuel
  induction fuel with
  | zero => intro st _ _ h; exact h
  | succ n ih =>
    intro st hwf hak hsort
    cases hq : st.queue with
    | nil => simp only [drainLoop, hq]; exact hsort
    | cons id rest =>
      have hresttail : rest.Pairwise (fun a b => scoreOf st.tokens b ≤ scoreOf st.tokens a) := by
        have := hsort
        rw [QueueSorted, hq] at this
        exact (List.pairwise_cons.mp this).2
      cases hl : lookupTok st.tokens id with
      | none => simp only [drainLoop, hq, hl]; exact hsort
      | some tok =>
        have hid : tok.id = id := hak id tok (lookupTok_some_mem hl)
        cases halloc : allocateToken tok cfg now { st with queue := rest } with
        | mk o st2 =>
          cases o with
          | none =>
            have hst2 : st2 = { st with queue := rest } := allocateToken_none_eq halloc
            simp only [drainLoop, hq, hl, halloc]
            subst hst2
            show (insertByScore st.tokens tok rest).Pairwise _
            apply pairwise_insertByScore
            · show scoreOf st.tokens tok.id = tok.priorityScore
              rw [hid]
              unfold scoreOf
              rw [hl]
            · exact hresttail
          | some i =>
            obtain ⟨htk0, hq20, -, -, -, -, -⟩ := allocateToken_some_spec halloc
            have htk : st2.tokens = updateTok (allocMark cfg i now) st.tokens tok.id := htk0
            have hq2 : st2.queue = rest := hq20
            have hsc : ∀ x, scoreOf st2.tokens x = scoreOf st.tokens x := by
              intro x
              rw [htk]
              exact scoreOf_updateTok (f := allocMark cfg i now) (fun t => rfl) x
            have hwf2 : WFQueue st2 := by
              intro x hx
              rw [hq2] at hx
              rw [htk, lookupTok_updateTok_isSome]
              exact hwf x (by rw [hq]; exact List.mem_cons_of_mem _ hx)
            have hak2 : ArenaKeyed st2.tokens := by
              rw [htk]
              exact arenaKeyed_updateTok hak (fun t => rfl)
            have hsort2 : QueueSorted st2 := by
              rw [QueueSorted, hq2]
              refine List.Pairwise.imp ?_ hresttail
              intro a b hab
              rw [hsc a, hsc b]
              exact hab
            simp only [drainLoop, hq, hl, halloc]
            exact ih st2 hwf2 hak2 hsort2

/-! ## Characterizing a failed single placement (allocateToken returning null) -/

theorem allocateTokenSlots_none_iff {tokId : String} :
    ∀ {slots : List Slot}, allocateTokenSlots tokId slots = none ↔
      ∀ s ∈ slots,
        ¬(s.status = SlotStatus.AVAILABLE ∧ s.allocatedTokenIds.length < s.capacity) := by
  intro slots
  induction slots with
  | nil => simp [allocateTokenSlots]
  | cons s rest ih =>
    rw [allocateTokenSlots]
    split
    · next hc =>
      constructor
      · intro h; cases h
      · intro h; exact absurd hc (h s (List.mem_cons_self _ _))
    · next hc =>
      cases hrec : allocateTokenSlots tokId rest with
      | none =>
        constructor
        · intro _ t ht
          rcases List.mem_cons.mp ht with ht | ht
          · exact ht ▸ hc
          · exact ih.mp hrec t ht
        · intro _; rfl
      | some p =>
        obtain ⟨i, rest'⟩ := p
        constructor
        · intro h; cases h
        · intro h
          have hnone : allocateTokenSlots tokId rest = none :=
            ih.mpr (fun t ht => h t (List.mem_cons_of_mem _ ht))
          rw [hrec] at hnone
          cases hnone

/-! ## The priority model: class ranks and band dominance -/

/-- The class order of the glossary (urgent > referral > follow-up > online >
walk-in), as a numeric rank. -/
def classRank : PatientSource → Nat
  | PatientSource.WALKIN => 0
  | PatientSource.ONLINE => 1
  | PatientSource.FOLLOWUP => 2
  | PatientSource.REFERRAL => 3
  | PatientSource.EMERGENCY => 4

/-! ## The delay scan -/

theorem delayScan_occupants (d : Int) :
    ∀ (l : List Slot) (i : Nat),
      ((delayScan d i l).1).map Slot.allocatedTokenIds = l.map Slot.allocatedTokenIds := by
  intro l
  induction l with
  | nil => intro i; rfl
  | cons s rest ih =>
    intro i
    by_cases hs : s.startTime < d
    · simp only [delayScan, if_pos hs, List.map_cons]
      rw [ih (i + 1)]
    · simp only [delayScan, if_neg hs]

theorem flatMap_filter_of_map_occ_eq {p : String → Bool} :
    ∀ {l1 l2 : List Slot},
      l1.map Slot.allocatedTokenIds = l2.map Slot.allocatedTokenIds →
      l1.flatMap (fun s => s.allocatedTokenIds.filter p) =
        l2.flatMap (fun s => s.allocatedTokenIds.filter p) := by
  intro l1
  induction l1 with
  | nil =>
    intro l2 h
    cases l2 with
    | nil => rfl
    | cons t rest => cases h
  | cons s rest ih =>
    intro l2 h
    cases l2 with
    | nil => cases h
    | cons t rest2 =>
      simp only [List.map_cons, List.cons.injEq] at h
      rw [List.flatMap_cons, List.flatMap_cons, h.1, ih h.2]

/-! ## The clearing phase of reallocate and the bulk requeue -/

theorem foldl_updateTok_not_mem (f : Token → Token) :
    ∀ (ids : List String) (a : List (String × Token)) (x : String), x ∉ ids →
      lookupTok (ids.foldl (fun a id => updateTok f a id) a) x = lookupTok a x := by
  intro ids
  induction ids with
  | nil => intro a x _; rfl
  | cons i rest ih =>
    intro a x hx
    have hxi : x ≠ i := fun h => hx (h ▸ List.mem_cons_self _ _)
    have hxr : x ∉ rest := fun h => hx (List.mem_cons_of_mem _ h)
    show lookupTok (rest.foldl _ (updateTok f a i)) x = _
    rw [ih (updateTok f a i) x hxr, lookupTok_updateTok, if_neg hxi]

theorem foldl_updateTok_mem (f : Token → Token) :
    ∀ (ids : List String) (a : List (String × Token)) (x : String), ids.Nodup → x ∈ ids →
      lookupTok (ids.foldl (fun a id => updateTok f a id) a) x = (lookupTok a x).map f := by
  intro ids
  induction ids with
  | nil => intro a x _ hx; cases hx
  | cons i rest ih =>
    intro a x hnd hx
    obtain ⟨hni, hndr⟩ := List.nodup_cons.mp hnd
    show lookupTok (rest.foldl _ (updateTok f a i)) x = _
    rcases List.mem_cons.mp hx with hx | hx
    · subst hx
      have hxr : x ∉ rest := hni
      rw [foldl_updateTok_not_mem f rest _ x hxr, lookupTok_updateTok, if_pos rfl]
    · have hxi : x ≠ i := fun h => hni (h ▸ hx)
      rw [ih _ x hndr hx, lookupTok_updateTok, if_neg hxi]

theorem foldl_updateTok_isSome (f : Token → Token) :
    ∀ (ids : List String) (a : List (String × Token)) (x : String),
      (lookupTok (ids.foldl (fun a id => updateTok f a id) a) x).isSome =
        (lookupTok a x).isSome := by
  intro ids
  induction ids with
  | nil => intro a x; rfl
  | cons i rest ih =>
    intro a x
    show (lookupTok (rest.foldl _ (updateTok f a i)) x).isSome = _
    rw [ih (updateTok f a i) x, lookupTok_updateTok_isSome]

theorem arenaKeyed_foldl_updateTok (f : Token → Token) (hf : ∀ t, (f t).id = t.id) :
    ∀ (ids : List String) (a : List (String × Token)), ArenaKeyed a →
      ArenaKeyed (ids.foldl (fun a id => updateTok f a id) a) := by
  intro ids
  induction ids with
  | nil => intro a h; exact h
  | cons i rest ih =>
    intro a h
    exact ih _ (arenaKeyed_updateTok h hf)

theorem collectAndClear_keys :
    ∀ (l : List Slot) (arena : List (String × Token)) (x : String),
      (lookupTok (collectAndClear arena l).1 x).isSome = (lookupTok arena x).isSome := by
  intro l
  induction l with
  | nil => intro arena x; rfl
  | cons s rest ih =>
    intro arena x
    show (lookupTok (collectAndClear _ rest).1 x).isSome = _
    rw [ih _ x, foldl_updateTok_isSome]

theorem collectAndClear_untouched :
    ∀ (l : List Slot) (arena : List (String × Token)) (x : String),
      x ∉ (collectAndClear arena l).2.2 →
      lookupTok (collectAndClear arena l).1 x = lookupTok arena x := by
  intro l
  induction l with
  | nil => intro arena x _; rfl
  | cons s rest ih =>
    intro arena x hx
    have hx1 : x ∉ s.allocatedTokenIds.filter (fun id => (lookupTok arena id).isSome) := by
      intro hmem
      exact hx (by
        show x ∈ _ ++ _
        exact List.mem_append.mpr (Or.inl hmem))
    have hx2 : x ∉ (collectAndClear
        ((s.allocatedTokenIds.filter (fun id => (lookupTok arena id).isSome)).foldl
          (fun a id => updateTok requeueMark a id) arena) rest).2.2 := by
      intro hmem
      exact hx (by
        show x ∈ _ ++ _
        exact List.mem_append.mpr (Or.inr hmem))
    show lookupTok (collectAndClear _ rest).1 x = _
    rw [ih _ x hx2, foldl_updateTok_not_mem _ _ _ x hx1]

theorem flatMap_filter_isSome_congr {a1 a2 : List (String × Token)}
    (h : ∀ x, (lookupTok a1 x).isSome = (lookupTok a2 x).isSome) (l : List Slot) :
    l.flatMap (fun s => s.allocatedTokenIds.filter (fun id => (lookupTok a1 id).isSome)) =
      l.flatMap (fun s => s.allocatedTokenIds.filter (fun id => (lookupTok a2 id).isSome)) := by
  induction l with
  | nil => rfl
  | cons s rest ih =>
    rw [List.flatMap_cons, List.flatMap_cons, ih,
      List.filter_congr (fun a _ => h a)]

theorem collectAndClear_ids :
    ∀ (l : List Slot) (arena : List (String × Token)),
      (collectAndClear arena l).2.2 =
        l.flatMap (fun s => s.allocatedTokenIds.filter (fun id => (lookupTok arena id).isSome)) := by
  intro l
  induction l with
  | nil => intro arena; rfl
  | cons s rest ih =>
    intro arena
    show _ ++ (collectAndClear _ rest).2.2 = _
    rw [List.flatMap_cons, ih, flatMap_filter_isSome_congr (fun x => foldl_updateTok_isSome _ _ _ x)]

theorem collectAndClear_slots :
    ∀ (l : List Slot) (arena : List (String × Token)),
      (collectAndClear arena l).2.1 = l.map (fun s => { s with allocatedTokenIds := [] }) := by
  intro l
  induction l with
  | nil => intro arena; rfl
  | cons s rest ih =>
    intro arena
    show _ :: (collectAndClear _ rest).2.1 = _
    rw [ih, List.map_cons]

theorem arenaKeyed_collectAndClear :
    ∀ (l : List Slot) (arena : List (String × Token)), ArenaKeyed arena →
      ArenaKeyed (collectAndClear arena l).1 := by
  intro l
  induction l with
  | nil => intro arena h; exact h
  | cons s rest ih =>
    intro arena h
    exact ih _ (arenaKeyed_foldl_updateTok requeueMark (fun t => rfl) _ _ h)

theorem collectAndClear_found :
    ∀ (l : List Slot) (arena : List (String × Token)),
      (collectAndClear arena l).2.2.Nodup →
      ∀ id ∈ (collectAndClear arena l).2.2,
        ∃ t, lookupTok arena id = some t ∧
          lookupTok (collectAndClear arena l).1 id = some (requeueMark t) := by
  intro l
  induction l with
  | nil => intro arena _ id hid; cases hid
  | cons s rest ih =>
    intro arena hnd id hid
    have hshape : (collectAndClear arena (s :: rest)).2.2 =
        s.allocatedTokenIds.filter (fun id => (lookupTok arena id).isSome) ++
          (collectAndClear
            ((s.allocatedTokenIds.filter (fun id => (lookupTok arena id).isSome)).foldl
              (fun a id => updateTok requeueMark a id) arena) rest).2.2 := rfl
    rw [hshape] at hnd hid
    obtain ⟨hnd1, hnd2, hdisj⟩ := List.nodup_append.mp hnd
    rcases List.mem_append.mp hid with hmem | hmem
    · have hsome : (lookupTok arena id).isSome = true := by
        have := List.of_mem_filter hmem
        simpa using this
      obtain ⟨t, ht⟩ := Option.isSome_iff_exists.mp hsome
      refine ⟨t, ht, ?_⟩
      have hnotrec : id ∉ (collectAndClear _ rest).2.2 := fun hc => hdisj hmem hc
      show lookupTok (collectAndClear _ rest).1 id = _
      rw [collectAndClear_untouched rest _ id hnotrec,
        foldl_updateTok_mem requeueMark _ _ id hnd1 hmem, ht]
      rfl
    · have hnotfound : id ∉ s.allocatedTokenIds.filter (fun id => (lookupTok arena id).isSome) :=
        fun hc => hdisj hc hmem
      obtain ⟨t', ht', hfin⟩ := ih _ hnd2 id hmem
      refine ⟨t', ?_, hfin⟩
      rw [← ht']
      exact (foldl_updateTok_not_mem requeueMark _ arena id hnotfound).symm

theorem requeueIds_perm :
    ∀ (ids : List String) (st : EngineState),
      (∀ id ∈ ids, (lookupTok st.tokens id).isSome = true) → ArenaKeyed st.tokens →
      (requeueIds ids st).queue.Perm (ids ++ st.queue) := by
  intro ids
  induction ids with
  | nil => intro st _ _; exact List.Perm.refl _
  | cons id rest ih =>
    intro st hres hak
    have hsome : (lookupTok st.tokens id).isSome = true :=
      hres id (List.mem_cons_self _ _)
    obtain ⟨tok, hl⟩ := Option.isSome_iff_exists.mp hsome
    have hid : tok.id = id := hak id tok (lookupTok_some_mem hl)
    have hstep : requeueIds (id :: rest) st = requeueIds rest (enqueueTok tok st) := by
      simp only [requeueIds, List.foldl_cons, hl]
    rw [hstep]
    have hres2 : ∀ x ∈ rest, (lookupTok (enqueueTok tok st).tokens x).isSome = true :=
      fun x hx => hres x (List.mem_cons_of_mem _ hx)
    have hperm := ih (enqueueTok tok st) hres2 hak
    refine hperm.trans ?_
    show (rest ++ insertByScore st.tokens tok st.queue).Perm _
    refine ((insertByScore_perm st.tokens tok st.queue).append_left rest).trans ?_
    rw [hid]
    exact List.perm_middle

theorem requeueIds_sorted :
    ∀ (ids : List String) (st : EngineState),
      (∀ id ∈ ids, (lookupTok st.tokens id).isSome = true) → ArenaKeyed st.tokens →
      QueueSorted st → QueueSorted (requeueIds ids st) := by
  intro ids
  induction ids with
  | nil => intro st _ _ h; exact h
  | cons id rest ih =>
    intro st hres hak hsort
    have hsome : (lookupTok st.tokens id).isSome = true :=
      hres id (List.mem_cons_self _ _)
    obtain ⟨tok, hl⟩ := Option.isSome_iff_exists.mp hsome
    have hid : tok.id = id := hak id tok (lookupTok_some_mem hl)
    have hstep : requeueIds (id :: rest) st = requeueIds rest (enqueueTok tok st) := by
      simp only [requeueIds, List.foldl_cons, hl]
    rw [hstep]
    refine ih (enqueueTok tok st) (fun x hx => hres x (List.mem_cons_of_mem _ hx)) hak ?_
    show (insertByScore st.tokens tok st.queue).Pairwise _
    apply pairwise_insertByScore
    · show scoreOf st.tokens tok.id = tok.priorityScore
      rw [hid]
      unfold scoreOf
      rw [hl]
    · exact hsort

theorem forall₂_get?_right {R : Slot → Slot → Prop} :
    ∀ {l l' : List Slot}, List.Forall₂ R l l' → ∀ {i : Nat} {b : Slot},
      l'.get? i = some b → ∃ a, l.get? i = some a ∧ R a b := by
  intro l l' h
  induction h with
  | nil => intro i b hb; cases i <;> cases hb
  | cons hr hrest ih =>
    intro i b hb
    cases i with
    | zero =>
      injection hb with hb
      subst hb
      exact ⟨_, rfl, hr⟩
    | succ n => exact ih hb

theorem get?_take_append_map_drop (f : Slot → Slot) :
    ∀ (l : List Slot) (n i : Nat),
      (l.take n ++ (l.drop n).map f).get? i =
        if i < n then l.get? i else (l.get? i).map f := by
  intro l
  induction l with
  | nil =>
    intro n i
    simp only [List.take_nil, List.drop_nil, List.map_nil, List.nil_append]
    split <;> simp
  | cons s rest ih =>
    intro n i
    cases n with
    | zero =>
      simp only [List.take_zero, List.drop_zero, List.nil_append, Nat.not_lt_zero, if_false]
      exact List.get?_map f _ i
    | succ m =>
      cases i with
      | zero => simp [List.take_succ_cons]
      | succ k =>
        simp only [List.take_succ_cons, List.drop_succ_cons, List.cons_append, List.get?_cons_succ]
        rw [ih m k]
        simp [Nat.succ_lt_succ_iff]

theorem scoreOf_foldl_updateTok (f : Token → Token)
    (hf : ∀ t, (f t).priorityScore = t.priorityScore) :
    ∀ (ids : List String) (a : List (String × Token)) (x : String),
      scoreOf (ids.foldl (fun a id => updateTok f a id) a) x = scoreOf a x := by
  intro ids
  induction ids with
  | nil => intro a x; rfl
  | cons i rest ih =>
    intro a x
    show scoreOf (rest.foldl _ (updateTok f a i)) x = _
    rw [ih (updateTok f a i) x]
    exact scoreOf_updateTok hf x

theorem scoreOf_collectAndClear :
    ∀ (l : List Slot) (arena : List (String × Token)) (x : String),
      scoreOf (collectAndClear arena l).1 x = scoreOf arena x := by
  intro l
  induction l with
  | nil => intro arena x; rfl
  | cons s rest ih =>
    intro arena x
    show scoreOf (collectAndClear _ rest).1 x = _
    rw [ih _ x]
    exact scoreOf_foldl_updateTok requeueMark (fun t => rfl) _ _ x

/-- The displaced-id/cleared-state shape of the clearing phase. -/
theorem reallocateClear_shape (idx : Nat) (st : EngineState) :
    (reallocateClear idx st).1 =
      (st.slots.drop idx).flatMap
        (fun s => s.allocatedTokenIds.filter (fun id => (lookupTok st.tokens id).isSome)) ∧
    (reallocateClear idx st).2.queue = st.queue ∧
    (reallocateClear idx st).2.tokens = (collectAndClear st.tokens (st.slots.drop idx)).1 ∧
    (reallocateClear idx st).2.slots =
      st.slots.take idx ++ (st.slots.drop idx).map (fun s => { s with allocatedTokenIds := [] }) := by
  refine ⟨?_, rfl, rfl, ?_⟩
  · exact collectAndClear_ids (st.slots.drop idx) st.tokens
  · show st.slots.take idx ++ (collectAndClear st.tokens (st.slots.drop idx)).2.1 = _
    rw [collectAndClear_slots]

/-- Intermediate account of a full `reallocate` call, proved once and consumed
by the claim-level theorem: the returned ids are exactly the resolved
occupants of the slots from the index on; each of them ends the call either
`REQUEUED` with cleared slot linkage or re-`ALLOCATED` into a slot holding it;
and no slot becomes `BLOCKED` during the call. -/
theorem reallocate_master (cfg : DoctorCfg) (now : Int) (idx : Nat) (st : EngineState)
    (hwf : WFQueue st) (hak : ArenaKeyed st.tokens) (hsort : QueueSorted st)
    (hnd : ((st.slots.drop idx).flatMap
        (fun s => s.allocatedTokenIds.filter (fun id => (lookupTok st.tokens id).isSome)) ++
        st.queue).Nodup) :
    (reallocate cfg now idx st).1 =
      (st.slots.drop idx).flatMap
        (fun s => s.allocatedTokenIds.filter (fun id => (lookupTok st.tokens id).isSome)) ∧
    (∀ id ∈ (reallocate cfg now idx st).1, ∃ t',
      lookupTok (reallocate cfg now idx st).2.tokens id = some t' ∧
      ((t'.status = TokenStatus.REQUEUED ∧ t'.slotIndex = none) ∨
       (t'.status = TokenStatus.ALLOCATED ∧ ∃ j sj', t'.slotIndex = some j ∧
         (reallocate cfg now idx st).2.slots.get? j = some sj' ∧
         id ∈ sj'.allocatedTokenIds))) ∧
    (∀ i sj', (reallocate cfg now idx st).2.slots.get? i = some sj' →
      sj'.status = SlotStatus.BLOCKED →
      ∃ sj, st.slots.get? i = some sj ∧ sj.status = SlotStatus.BLOCKED) := by
  obtain ⟨hids, hcq, hctok, hcslots⟩ := reallocateClear_shape idx st
  have hres1 : (reallocate cfg now idx st).1 = (reallocateClear idx st).1 := rfl
  have hresolve : ∀ id ∈ (reallocateClear idx st).1,
      (lookupTok (reallocateClear idx st).2.tokens id).isSome = true := by
    intro id hid
    rw [hids] at hid
    obtain ⟨s, hs, hmem⟩ := List.mem_flatMap.mp hid
    have := List.of_mem_filter hmem
    rw [hctok, collectAndClear_keys]
    simpa using this
  have hak1 : ArenaKeyed (reallocateClear idx st).2.tokens := by
    rw [hctok]
    exact arenaKeyed_collectAndClear _ _ hak
  have hscores : ∀ x, scoreOf (reallocateClear idx st).2.tokens x = scoreOf st.tokens x := by
    intro x
    rw [hctok]
    exact scoreOf_collectAndClear _ _ x
  have hwf1 : WFQueue (reallocateClear idx st).2 := by
    intro x hx
    rw [hcq] at hx
    rw [hctok, collectAndClear_keys]
    exact hwf x hx
  have hsort1 : QueueSorted (reallocateClear idx st).2 := by
    show (reallocateClear idx st).2.queue.Pairwise _
    rw [hcq]
    refine List.Pairwise.imp ?_ hsort
    intro a b hab
    rw [hscores a, hscores b]
    exact hab
  have htokeq := requeueIds_slots_tokens (reallocateClear idx st).1 (reallocateClear idx st).2
  have hq2perm : (requeueIds (reallocateClear idx st).1 (reallocateClear idx st).2).queue.Perm
      ((reallocateClear idx st).1 ++ st.queue) := by
    have := requeueIds_perm (reallocateClear idx st).1 (reallocateClear idx st).2 hresolve hak1
    rw [hcq] at this
    exact this
  have hnd2 : (requeueIds (reallocateClear idx st).1 (reallocateClear idx st).2).queue.Nodup := by
    rw [hq2perm.nodup_iff]
    rw [hids]
    exact hnd
  have hwf2 : WFQueue (requeueIds (reallocateClear idx st).1 (reallocateClear idx st).2) := by
    intro x hx
    rw [htokeq.2]
    have hx2 := hq2perm.subset hx
    rcases List.mem_append.mp hx2 with hx2 | hx2
    · exact hresolve x hx2
    · rw [hctok, collectAndClear_keys]
      exact hwf x hx2
  have hak2 : ArenaKeyed (requeueIds (reallocateClear idx st).1 (reallocateClear idx st).2).tokens := by
    rw [htokeq.2]
    exact hak1
  obtain ⟨placed, hperm, hplaced, huntouched⟩ :=
    drainLoop_master cfg now
      (requeueIds (reallocateClear idx st).1 (reallocateClear idx st).2).queue.length
      (requeueIds (reallocateClear idx st).1 (reallocateClear idx st).2)
      (Nat.le_refl _) hwf2 hnd2 hak2
  have hfinal : (reallocate cfg now idx st).2 =
      (drainLoop cfg now
        (requeueIds (reallocateClear idx st).1 (reallocateClear idx st).2).queue.length
        (requeueIds (reallocateClear idx st).1 (reallocateClear idx st).2)).2 := rfl
  refine ⟨by rw [hres1, hids], ?_, ?_⟩
  · intro id hid
    rw [hres1] at hid
    have hndc : (reallocateClear idx st).1.Nodup := by
      rw [hids]
      exact (List.nodup_append.mp hnd).1
    have hinq : id ∈ (requeueIds (reallocateClear idx st).1 (reallocateClear idx st).2).queue := by
      rw [hq2perm.mem_iff]
      exact List.mem_append.mpr (Or.inl hid)
    by_cases hp : id ∈ placed
    · obtain ⟨t, j, sj', ho2, hf2, hg2, hm2⟩ := hplaced id hp
      refine ⟨allocMark cfg j now t, ?_, Or.inr ⟨rfl, j, sj', rfl, ?_, hm2⟩⟩
      · rw [hfinal]
        exact hf2
      · rw [hfinal]
        exact hg2
    · have hu := huntouched id hp
      have hfound := collectAndClear_found (st.slots.drop idx) st.tokens
        (by
          show (collectAndClear st.tokens (st.slots.drop idx)).2.2.Nodup
          have : (collectAndClear st.tokens (st.slots.drop idx)).2.2 =
              (reallocateClear idx st).1 := rfl
          rw [this]
          exact hndc) id
        (by
          show id ∈ (collectAndClear st.tokens (st.slots.drop idx)).2.2
          exact hid)
      obtain ⟨t, hlt, hfin⟩ := hfound
      refine ⟨requeueMark t, ?_, Or.inl ⟨rfl, rfl⟩⟩
      rw [hfinal, hu, htokeq.2, hctok]
      exact hfin
  · intro i sj' hget hblocked
    rw [hfinal] at hget
    have htouch := drainLoop_slots_touch cfg now
      (requeueIds (reallocateClear idx st).1 (reallocateClear idx st).2).queue.length
      (requeueIds (reallocateClear idx st).1 (reallocateClear idx st).2)
    obtain ⟨a, hga, hrel⟩ := forall₂_get?_right htouch hget
    obtain ⟨-, -, -, -, -, hst⟩ := hrel
    have hastatus : a.status = SlotStatus.BLOCKED := by
      rcases hst with hst | ⟨-, hfull⟩
      · rw [← hst, hblocked]
      · rw [hfull] at hblocked
        cases hblocked
    rw [htokeq.1, hcslots] at hga
    rw [get?_take_append_map_drop] at hga
    split at hga
    · exact ⟨a, hga, hastatus⟩
    · cases hgo : st.slots.get? i with
      | none => rw [hgo] at hga; cases hga
      | some orig =>
        rw [hgo] at hga
        injection hga with hga
        refine ⟨orig, rfl, ?_⟩
        have : a.status = orig.status := by rw [← hga]
        rw [← this, hastatus]

theorem delayScan_head_none {d : Int} {s0 : Slot} {rest : List Slot}
    (h0 : ¬s0.startTime < d) : delayScan d 0 (s0 :: rest) = (s0 :: rest, none) := by
  simp only [delayScan, if_neg h0]

theorem delayScan_head_some {d : Int} {s0 : Slot} {rest : List Slot}
    (h0 : s0.startTime < d) : (delayScan d 0 (s0 :: rest)).2 = some 0 := by
  simp only [delayScan, if_pos h0]

theorem handleDoctorDelay_dichotomy (cfg : DoctorCfg) (now delayMinutes : Int) (st : EngineState)
    (hsorted : st.slots.Pairwise (fun a b => a.startTime ≤ b.startTime))
    (hpos : 0 < delayMinutes) :
    (handleDoctorDelay cfg now delayMinutes st = ([], st) ∧
      ∀ s ∈ st.slots, ¬s.startTime < now + delayMinutes * 60000) ∨
    ((∃ s0, st.slots.get? 0 = some s0 ∧ s0.startTime < now + delayMinutes * 60000) ∧
      (handleDoctorDelay cfg now delayMinutes st).1 =
        st.slots.flatMap
          (fun s => s.allocatedTokenIds.filter (fun id => (lookupTok st.tokens id).isSome))) := by
  by_cases hempty : st.slots = []
  · left
    constructor
    · simp [handleDoctorDelay, hempty, delayScan]
    · intro s hs
      rw [hempty] at hs
      cases hs
  · obtain ⟨s0, rest, hsl⟩ : ∃ s0 rest, st.slots = s0 :: rest := by
      cases hq : st.slots with
      | nil => exact absurd hq hempty
      | cons a b => exact ⟨a, b, rfl⟩
    by_cases h0 : s0.startTime < now + delayMinutes * 60000
    · right
      refine ⟨⟨s0, by rw [hsl]; rfl, h0⟩, ?_⟩
      have hr2 : (delayScan (now + delayMinutes * 60000) 0 st.slots).2 = some 0 := by
        rw [hsl]
        exact delayScan_head_some h0
      simp only [handleDoctorDelay]
      rw [hr2]
      show (reallocate cfg now 0
        { st with slots := (delayScan (now + delayMinutes * 60000) 0 st.slots).1 }).1 = _
      show (collectAndClear st.tokens
        (((delayScan (now + delayMinutes * 60000) 0 st.slots).1).drop 0)).2.2 = _
      rw [List.drop_zero, collectAndClear_ids]
      exact flatMap_filter_of_map_occ_eq (delayScan_occupants _ st.slots 0)
    · left
      have hr2 : delayScan (now + delayMinutes * 60000) 0 st.slots = (st.slots, none) := by
        rw [hsl]
        exact delayScan_head_none h0
      constructor
      · simp only [handleDoctorDelay]
        rw [hr2]
      · intro s hs
        rw [hsl] at hs hsorted
        rcases List.mem_cons.mp hs with hs | hs
        · rw [hs]
          exact h0
        · have hle : s0.startTime ≤ s.startTime := List.rel_of_pairwise_cons hsorted hs
          intro hlt
          exact h0 (lt_of_le_of_lt hle hlt)

theorem calculatePriority_dominance (t1 t2 : Token)
    (hrank : classRank t2.source < classRank t1.source)
    (hts : (t1.requestedAt : ℚ) - (t2.requestedAt : ℚ) < 100000000000) :
    calculatePriority t2 < calculatePriority t1 := by
  have key : (t1.requestedAt : ℚ) / 1000000000 - (t2.requestedAt : ℚ) / 1000000000 < 100 := by
    rw [div_sub_div_same]
    rw [div_lt_iff (by norm_num : (0 : ℚ) < 1000000000)]
    calc (t1.requestedAt : ℚ) - (t2.requestedAt : ℚ) < 100000000000 := hts
      _ = 100 * 1000000000 := by norm_num
  cases h1 : t1.source <;> cases h2 : t2.source <;>
    simp only [h1, h2, classRank] at hrank <;>
    first
    | exact absurd hrank (by decide)
    | (simp only [calculatePriority, h1, h2]; linarith [key])

/-! ## Concrete example data used by the counterexamples and witnesses -/

def mkSlot (s e : Int) (cap : Nat) (occ : List String) (stat : SlotStatus) (em : Nat) : Slot :=
  { startTime := s, endTime := e, capacity := cap, allocatedTokenIds := occ, status := stat,
    emergencyCount := em }

def baseToken : Token :=
  { id := "t", patientName := "p", patientAge := 30, source := PatientSource.WALKIN,
    status := TokenStatus.REQUESTED, doctorId := none, slotIndex := none, priorityScore := 0,
    requestedAt := 0, allocatedAt := none, completedAt := none, flexibility := none }

def cfgNoQuota : DoctorCfg :=
  { id := "d", maxEmergenciesPerSlot := none, maxEmergenciesPerDay := none }

def cfgSlotQuota1 : DoctorCfg :=
  { id := "d", maxEmergenciesPerSlot := some 1, maxEmergenciesPerDay := none }

/-! ## Claim C1 — capacity invariant preservation -/

def c1TokA : Token := { baseToken with id := "A", status := TokenStatus.ALLOCATED, slotIndex := some 0 }

def c1TokB : Token := { baseToken with id := "B", status := TokenStatus.ALLOCATED, slotIndex := some 1 }

def c1State : EngineState :=
  { slots := [mkSlot 0 10 1 ["A"] SlotStatus.FULL 0, mkSlot 10 20 1 ["B"] SlotStatus.FULL 0],
    tokens := [("A", c1TokA), ("B", c1TokB)], queue := [] }

/-- C1, counterexample: the claim as stated is false for the reshuffler's
`shiftToken` taken as a standalone operation — from a capacity-respecting state
(two slots of capacity 1, each full), shifting a token into the full
destination slot pushes that slot to 2 occupants, over its capacity.  (At its
only call site the destination is pre-checked to have spare capacity.) -/
theorem C1_shiftToken_counterexample :
    CapacityInv c1State ∧ ¬CapacityInv (shiftToken c1TokA 0 1 0 c1State) :=
  of_decide_eq_true rfl

/-- C1 (amended): every engine operation preserves the capacity invariant —
`allocateToken`, `allocateFromQueue`, `reallocate`, `freeTokenFromSlot`,
`handleEmergency` (direct placement or reshuffle path), and the reshuffler's
`shiftToken` when its destination slot has spare capacity, which is exactly
what its only call site (`attemptReshuffle`) guarantees. -/
theorem C1_capacity_preserved :
    (∀ (tok : Token) (cfg : DoctorCfg) (now : Int) (st : EngineState),
      CapacityInv st → CapacityInv (allocateToken tok cfg now st).2) ∧
    (∀ (cfg : DoctorCfg) (now : Int) (st : EngineState),
      CapacityInv st → CapacityInv (allocateFromQueue cfg now st).2) ∧
    (∀ (cfg : DoctorCfg) (now : Int) (idx : Nat) (st : EngineState),
      CapacityInv st → CapacityInv (reallocate cfg now idx st).2) ∧
    (∀ (tok : Token) (st : EngineState),
      CapacityInv st → CapacityInv (freeTokenFromSlot tok st)) ∧
    (∀ (cfg : DoctorCfg) (now : Int) (wr : Bool) (tok : Token) (st : EngineState),
      CapacityInv st →
      CapacityInv ((handleEmergency cfg now wr tok st).getD (false, st)).2) ∧
    (∀ (tok : Token) (fromIdx toIdx : Nat) (now : Int) (st : EngineState) (sj : Slot),
      CapacityInv st → st.slots.get? toIdx = some sj →
      sj.allocatedTokenIds.length < sj.capacity →
      CapacityInv (shiftToken tok fromIdx toIdx now st)) :=
  ⟨capacityInv_allocateToken, capacityInv_allocateFromQueue, capacityInv_reallocate,
    capacityInv_freeTokenFromSlot,
    fun cfg now wr tok st h => by
      cases hres : handleEmergency cfg now wr tok st with
      | none => exact h
      | some r =>
        show CapacityInv r.2
        exact capacityInv_handleEmergency cfg now wr tok st r h hres,
    fun tok fromIdx toIdx now st sj h hget hcap =>
      capacityInv_shiftToken tok fromIdx toIdx now st sj h hget hcap⟩

def c1wTokE : Token := { baseToken with id := "E", source := PatientSource.EMERGENCY }

def c1wState : EngineState :=
  { slots := [mkSlot 0 10 1 [] SlotStatus.AVAILABLE 0], tokens := [("E", c1wTokE)], queue := [] }

def c1wShiftState : EngineState :=
  { slots := [mkSlot 0 10 2 ["A"] SlotStatus.AVAILABLE 0, mkSlot 10 20 2 ["B"] SlotStatus.AVAILABLE 0],
    tokens := [("A", c1TokA), ("B", c1TokB)], queue := [] }

/-- C1, witness: each conjunct of the preservation theorem applied at a
concrete state. -/
theorem C1_capacity_preserved_witness :
    CapacityInv (allocateToken baseToken cfgNoQuota 0 c1State).2 ∧
    CapacityInv (allocateFromQueue cfgNoQuota 0 c1State).2 ∧
    CapacityInv (reallocate cfgNoQuota 0 0 c1State).2 ∧
    CapacityInv (freeTokenFromSlot c1TokA c1State) ∧
    CapacityInv ((handleEmergency cfgNoQuota 0 true c1wTokE c1wState).getD (false, c1wState)).2 ∧
    CapacityInv (shiftToken c1TokA 0 1 0 c1wShiftState) :=
  ⟨C1_capacity_preserved.1 baseToken cfgNoQuota 0 c1State (of_decide_eq_true rfl),
    C1_capacity_preserved.2.1 cfgNoQuota 0 c1State (of_decide_eq_true rfl),
    C1_capacity_preserved.2.2.1 cfgNoQuota 0 0 c1State (of_decide_eq_true rfl),
    C1_capacity_preserved.2.2.2.1 c1TokA c1State (of_decide_eq_true rfl),
    C1_capacity_preserved.2.2.2.2.1 cfgNoQuota 0 true c1wTokE c1wState (of_decide_eq_true rfl),
    C1_capacity_preserved.2.2.2.2.2 c1TokA 0 1 0 c1wShiftState
      (mkSlot 10 20 2 ["B"] SlotStatus.AVAILABLE 0) (of_decide_eq_true rfl)
      (of_decide_eq_true rfl) (of_decide_eq_true rfl)⟩

/-! ## Claim C2 — per-slot urgent ceiling -/

def c2TokA : Token :=
  { baseToken with
      id := "A", status := TokenStatus.ALLOCATED, slotIndex := some 0,
      flexibility := some TokenFlexibility.HIGH }

def c2TokE1 : Token :=
  { baseToken with
      id := "E1", source := PatientSource.EMERGENCY,
      status := TokenStatus.ALLOCATED, slotIndex := some 0 }

def c2TokB : Token :=
  { baseToken with id := "B", status := TokenStatus.ALLOCATED, slotIndex := some 1 }

def c2TokE2 : Token := { baseToken with id := "E2", source := PatientSource.EMERGENCY }

def c2State : EngineState :=
  { slots := [mkSlot 0 10 2 ["A", "E1"] SlotStatus.FULL 1,
      mkSlot 10 20 2 ["B"] SlotStatus.AVAILABLE 1],
    tokens := [("A", c2TokA), ("E1", c2TokE1), ("B", c2TokB), ("E2", c2TokE2)], queue := [] }

/-- C2: the code violates the per-slot urgent ceiling through the reshuffling
fallback.  With ceiling 1 and every slot's `emergencyCount` at most 1
beforehand, `handleEmergency`'s reshuffle path moves the flexible occupant of
slot 0 aside, places the urgent token into slot 0 and increments that slot's
`emergencyCount` to 2 with no quota re-check — the code's own header comment
("Emergency quota per slot respected") and the spec's invariant both promise
this cannot happen. -/
theorem C2_reshuffle_quota_bug :
    cfgSlotQuota1.maxEmergenciesPerSlot = some 1 ∧
    (∀ s ∈ c2State.slots, s.emergencyCount ≤ 1) ∧
    (handleEmergency cfgSlotQuota1 0 true c2TokE2 c2State).map
      (fun r => (r.1, r.2.slots.map Slot.emergencyCount)) = some (true, [2, 1]) :=
  of_decide_eq_true rfl

/-! ## Claim C3 — slot status as a derived view -/

def c3TokB : Token :=
  { baseToken with id := "B", status := TokenStatus.ALLOCATED, slotIndex := some 1 }

def c3State : EngineState :=
  { slots := [mkSlot 0 100 1 [] SlotStatus.AVAILABLE 0,
      mkSlot 100000 200000 1 ["B"] SlotStatus.FULL 0],
    tokens := [("B", c3TokB)], queue := [] }

/-- C3: the code breaks the derived-status view after a provider-delay
reallocation.  A 1-minute delay reaches only slot 0, so only slot 0 is
blocked, but `reallocate` clears every slot from the first affected index to
the end of the day without touching status: slot 1 ends the call with no
occupants, capacity 1 and status still `FULL` (not `BLOCKED`), where the
claim requires `AVAILABLE`; the stale `FULL` also makes the drain skip the
now-empty slot. -/
theorem C3_status_drift_bug :
    ((handleDoctorDelay cfgNoQuota 0 1 c3State).2.slots.get? 1).map
      (fun s => (s.status, s.allocatedTokenIds, s.capacity)) =
      some (SlotStatus.FULL, ([] : List String), 1) ∧
    SlotStatus.FULL ≠ SlotStatus.BLOCKED ∧ SlotStatus.FULL ≠ SlotStatus.AVAILABLE :=
  of_decide_eq_true rfl

/-! ## Claim C4 — class bands and the timestamp tiebreaker -/

def c4TokE : Token :=
  { baseToken with id := "E", source := PatientSource.EMERGENCY, requestedAt := 2000000000000 }

def c4TokW : Token := { baseToken with id := "W" }

/-- C4, counterexample: the tiebreaker can cross band boundaries for
sufficiently distant timestamps.  An EMERGENCY token requested at epoch
millisecond 2·10¹² scores 1000 − 2000 = −1000, strictly below a WALKIN token
requested at 0, which scores 0 — so the strictly-higher class does not always
receive a strictly higher score. -/
theorem C4_band_crossing_counterexample :
    classRank c4TokW.source < classRank c4TokE.source ∧
    ¬calculatePriority c4TokW < calculatePriority c4TokE := by
  constructor
  · simp [classRank, c4TokE, c4TokW, baseToken]
  · simp only [calculatePriority, c4TokE, c4TokW, baseToken]
    norm_num

/-- C4 (amended): a token of a strictly higher class receives a strictly
higher `calculatePriority` score whenever the higher-class token's arrival
timestamp exceeds the lower-class token's by less than 10¹¹ ms (the smallest
band gap, 100, times the 10⁹ tiebreaker divisor) — in particular for any two
timestamps of the same scheduling day. -/
theorem C4_priority_dominance (t1 t2 : Token)
    (hrank : classRank t2.source < classRank t1.source)
    (hts : (t1.requestedAt : ℚ) - (t2.requestedAt : ℚ) < 100000000000) :
    calculatePriority t2 < calculatePriority t1 :=
  calculatePriority_dominance t1 t2 hrank hts

def c4wTokE : Token :=
  { baseToken with id := "E", source := PatientSource.EMERGENCY, requestedAt := 1000 }

/-- C4, witness: the dominance theorem applied to an EMERGENCY arrival 1000 ms
after a WALKIN arrival. -/
theorem C4_priority_dominance_witness :
    calculatePriority baseToken < calculatePriority c4wTokE :=
  C4_priority_dominance c4wTokE baseToken
    (by simp [classRank, c4wTokE, baseToken])
    (by simp only [c4wTokE, baseToken]; norm_num)

/-! ## Claim C5 — reallocate's contract -/

def c5TokA : Token :=
  { baseToken with id := "A", status := TokenStatus.ALLOCATED, slotIndex := some 0 }

def c5State : EngineState :=
  { slots := [mkSlot 0 10 2 ["A"] SlotStatus.AVAILABLE 0],
    tokens := [("A", c5TokA)], queue := [] }

/-- C5, counterexample: `reallocate` does not mark the affected slots blocked,
does not leave their occupant sets empty, and does not leave every displaced
request in `REQUEUED`.  On a doctor with one `AVAILABLE` slot of capacity 2
holding token A, `reallocate` from index 0 displaces A, but its closing drain
immediately re-places A into the same still-`AVAILABLE` slot: after the call
the slot is `AVAILABLE` (not `BLOCKED`), holds `["A"]` (not emptied), and A is
`ALLOCATED` (not `REQUEUED`). -/
theorem C5_reallocate_counterexample :
    (reallocate cfgNoQuota 0 0 c5State).1 = ["A"] ∧
    (reallocate cfgNoQuota 0 0 c5State).2.slots.map (fun s => (s.status, s.allocatedTokenIds)) =
      [(SlotStatus.AVAILABLE, ["A"])] ∧
    (lookupTok (reallocate cfgNoQuota 0 0 c5State).2.tokens "A").map Token.status =
      some TokenStatus.ALLOCATED :=
  of_decide_eq_true rfl

/-- C5 (amended): `reallocate`, called with a starting slot index, removes
every occupant from every slot at or after that index, marking each occupant
found in the token map `REQUEUED` with its slot linkage cleared, re-enqueues
them and drains the queue once; the returned list is exactly the resolved
occupants of the affected slots (in slot order); after the call each
displaced request is either still `REQUEUED` with no slot linkage or has been
re-`ALLOCATED` by the drain into a slot that holds it; and `reallocate` never
marks a slot blocked (blocking is the delay handler's job, done before the
call, for the delay window only). -/
theorem C5_reallocate_spec (cfg : DoctorCfg) (now : Int) (idx : Nat) (st : EngineState)
    (hwf : WFQueue st) (hak : ArenaKeyed st.tokens) (hsort : QueueSorted st)
    (hnd : ((st.slots.drop idx).flatMap
        (fun s => s.allocatedTokenIds.filter (fun id => (lookupTok st.tokens id).isSome)) ++
        st.queue).Nodup) :
    (reallocate cfg now idx st).1 =
      (st.slots.drop idx).flatMap
        (fun s => s.allocatedTokenIds.filter (fun id => (lookupTok st.tokens id).isSome)) ∧
    (∀ id ∈ (reallocate cfg now idx st).1, ∃ t',
      lookupTok (reallocate cfg now idx st).2.tokens id = some t' ∧
      ((t'.status = TokenStatus.REQUEUED ∧ t'.slotIndex = none) ∨
       (t'.status = TokenStatus.ALLOCATED ∧ ∃ j sj', t'.slotIndex = some j ∧
         (reallocate cfg now idx st).2.slots.get? j = some sj' ∧
         id ∈ sj'.allocatedTokenIds))) ∧
    (∀ i sj', (reallocate cfg now idx st).2.slots.get? i = some sj' →
      sj'.status = SlotStatus.BLOCKED →
      ∃ sj, st.slots.get? i = some sj ∧ sj.status = SlotStatus.BLOCKED) :=
  reallocate_master cfg now idx st hwf hak hsort hnd

/-- C5, witness: the amended contract applied at a concrete state (one
available slot of capacity 2 holding token A). -/
theorem C5_reallocate_spec_witness :
    (reallocate cfgNoQuota 0 0 c5State).1 =
      (c5State.slots.drop 0).flatMap
        (fun s => s.allocatedTokenIds.filter (fun id => (lookupTok c5State.tokens id).isSome)) ∧
    (∀ id ∈ (reallocate cfgNoQuota 0 0 c5State).1, ∃ t',
      lookupTok (reallocate cfgNoQuota 0 0 c5State).2.tokens id = some t' ∧
      ((t'.status = TokenStatus.REQUEUED ∧ t'.slotIndex = none) ∨
       (t'.status = TokenStatus.ALLOCATED ∧ ∃ j sj', t'.slotIndex = some j ∧
         (reallocate cfgNoQuota 0 0 c5State).2.slots.get? j = some sj' ∧
         id ∈ sj'.allocatedTokenIds))) ∧
    (∀ i sj', (reallocate cfgNoQuota 0 0 c5State).2.slots.get? i = some sj' →
      sj'.status = SlotStatus.BLOCKED →
      ∃ sj, c5State.slots.get? i = some sj ∧ sj.status = SlotStatus.BLOCKED) :=
  C5_reallocate_spec cfgNoQuota 0 0 c5State (of_decide_eq_true rfl) (of_decide_eq_true rfl)
    (of_decide_eq_true rfl) (of_decide_eq_true rfl)

/-! ## Claim C6 — only flexibility-tagged occupants may be relocated -/

def c6TokU : Token :=
  { baseToken with id := "U", status := TokenStatus.ALLOCATED, slotIndex := some 0 }

def c6TokE : Token := { baseToken with id := "E", source := PatientSource.EMERGENCY }

def c6State : EngineState :=
  { slots := [mkSlot 0 10 1 ["U"] SlotStatus.FULL 0, mkSlot 10 20 1 [] SlotStatus.AVAILABLE 0],
    tokens := [("U", c6TokU), ("E", c6TokE)], queue := [] }

/-- C6: the code relieves a full slot whose only occupant carries no
flexibility tag.  `findMostFlexibleToken` starts its best score at −1 while an
untagged occupant scores 0, so the untagged occupant U of full slot 0 is
selected and moved to slot 1, and the urgent token is placed in slot 0 —
where the claim (with the spec: "If no occupant carries any flexibility tag,
this slot cannot be relieved; continue to the next slot") requires the scan to
move on without touching U. -/
theorem C6_untagged_occupant_moved_bug :
    (lookupTok c6State.tokens "U").map Token.flexibility = some none ∧
    (attemptReshuffle cfgNoQuota 0 c6TokE c6State).1 = some 0 ∧
    (attemptReshuffle cfgNoQuota 0 c6TokE c6State).2.slots.map Slot.allocatedTokenIds =
      [["E"], ["U"]] :=
  of_decide_eq_true rfl

/-! ## Claim C7 — drainQueue never drops a token and keeps priority order -/

/-- C7: `allocateFromQueue` never drops a token and keeps the queue in
descending-priority order: the multiset of queued ids before the call splits
into the placed ids — each now `ALLOCATED` into a slot that holds it — and
the remaining queue, which is still sorted (on the first failed placement the
dequeued token is pushed back at its priority position, which is what the
permutation and sortedness together assert). -/
theorem C7_drainQueue_preserves_tokens (cfg : DoctorCfg) (now : Int) (st : EngineState)
    (hwf : WFQueue st) (hnd : st.queue.Nodup) (hak : ArenaKeyed st.tokens)
    (hsort : QueueSorted st) :
    ∃ placed : List String,
      st.queue.Perm (placed ++ (allocateFromQueue cfg now st).2.queue) ∧
      (∀ id ∈ placed, ∃ t' j sj',
        lookupTok (allocateFromQueue cfg now st).2.tokens id = some t' ∧
        t'.status = TokenStatus.ALLOCATED ∧ t'.slotIndex = some j ∧
        (allocateFromQueue cfg now st).2.slots.get? j = some sj' ∧
        id ∈ sj'.allocatedTokenIds) ∧
      QueueSorted (allocateFromQueue cfg now st).2 := by
  obtain ⟨placed, hperm, hplaced, -⟩ :=
    drainLoop_master cfg now st.queue.length st (Nat.le_refl _) hwf hnd hak
  refine ⟨placed, hperm, ?_, drainLoop_sorted cfg now st.queue.length st hwf hak hsort⟩
  intro id hid
  obtain ⟨t, j, sj', ho, hf, hg, hm⟩ := hplaced id hid
  exact ⟨allocMark cfg j now t, j, sj', hf, rfl, rfl, hg, hm⟩

def c7TokW : Token := { baseToken with id := "w", status := TokenStatus.QUEUED }

def c7State : EngineState :=
  { slots := [mkSlot 0 10 1 [] SlotStatus.AVAILABLE 0],
    tokens := [("w", c7TokW)], queue := ["w"] }

/-- C7, witness: the drain contract applied at a concrete state (one queued
token, one open slot). -/
theorem C7_drainQueue_preserves_tokens_witness :
    ∃ placed : List String,
      c7State.queue.Perm (placed ++ (allocateFromQueue cfgNoQuota 0 c7State).2.queue) ∧
      (∀ id ∈ placed, ∃ t' j sj',
        lookupTok (allocateFromQueue cfgNoQuota 0 c7State).2.tokens id = some t' ∧
        t'.status = TokenStatus.ALLOCATED ∧ t'.slotIndex = some j ∧
        (allocateFromQueue cfgNoQuota 0 c7State).2.slots.get? j = some sj' ∧
        id ∈ sj'.allocatedTokenIds) ∧
      QueueSorted (allocateFromQueue cfgNoQuota 0 c7State).2 :=
  C7_drainQueue_preserves_tokens cfgNoQuota 0 c7State (of_decide_eq_true rfl)
    (of_decide_eq_true rfl) (of_decide_eq_true rfl) (of_decide_eq_true rfl)

/-! ## Claim C8 — a failed allocateToken leaves everything unchanged -/

/-- C8: when `allocateToken` returns null the doctor indeed has no slot that
is `AVAILABLE` with spare capacity, and the whole state — every slot's
occupant list and status, and every field of the token (status, doctorId,
slotIndex, allocatedAt, all held in the state's token arena) — is unchanged. -/
theorem C8_allocateToken_none_unchanged (tok : Token) (cfg : DoctorCfg) (now : Int)
    (st st' : EngineState) (h : allocateToken tok cfg now st = (none, st')) :
    st' = st ∧
    ∀ s ∈ st.slots,
      ¬(s.status = SlotStatus.AVAILABLE ∧ s.allocatedTokenIds.length < s.capacity) := by
  refine ⟨allocateToken_none_eq h, ?_⟩
  unfold allocateToken at h
  cases hrec : allocateTokenSlots tok.id st.slots with
  | none => exact allocateTokenSlots_none_iff.mp hrec
  | some p =>
    obtain ⟨i, slots'⟩ := p
    rw [hrec] at h
    have := congrArg Prod.fst h
    simp at this

def c8State : EngineState :=
  { slots := [mkSlot 0 10 1 ["A"] SlotStatus.FULL 0], tokens := [], queue := [] }

/-- C8, witness: the theorem applied at a concrete state with one full slot. -/
theorem C8_allocateToken_none_unchanged_witness :
    c8State = c8State ∧
    ∀ s ∈ c8State.slots,
      ¬(s.status = SlotStatus.AVAILABLE ∧ s.allocatedTokenIds.length < s.capacity) :=
  C8_allocateToken_none_unchanged baseToken cfgNoQuota 0 c8State c8State
    (of_decide_eq_true rfl)

/-! ## Claim C9 — a delay that reaches any slot reaches slot 0 -/

/-- C9: with the doctor's slots in chronological order and a positive delay,
`handleDoctorDelay` either touches no slot (no slot starts strictly before
now + delay; it returns the empty list and leaves the state unchanged) or the
first affected slot is slot 0 itself (slot 0 starts before the delay end), so
the reallocation displaces every resolved occupant of every slot of the
doctor's day — not only the slots inside the delay window. -/
theorem C9_delay_first_affected_dichotomy (cfg : DoctorCfg) (now delayMinutes : Int)
    (st : EngineState)
    (hsorted : st.slots.Pairwise (fun a b => a.startTime ≤ b.startTime))
    (hpos : 0 < delayMinutes) :
    (handleDoctorDelay cfg now delayMinutes st = ([], st) ∧
      ∀ s ∈ st.slots, ¬s.startTime < now + delayMinutes * 60000) ∨
    ((∃ s0, st.slots.get? 0 = some s0 ∧ s0.startTime < now + delayMinutes * 60000) ∧
      (handleDoctorDelay cfg now delayMinutes st).1 =
        st.slots.flatMap
          (fun s => s.allocatedTokenIds.filter (fun id => (lookupTok st.tokens id).isSome))) :=
  handleDoctorDelay_dichotomy cfg now delayMinutes st hsorted hpos

def c9State : EngineState :=
  { slots := [mkSlot 100000000 100060000 1 [] SlotStatus.AVAILABLE 0], tokens := [], queue := [] }

/-- C9, witness: the dichotomy applied at a concrete state whose single slot
starts well after the delay end. -/
theorem C9_delay_first_affected_dichotomy_witness :
    (handleDoctorDelay cfgNoQuota 0 1 c9State = ([], c9State) ∧
      ∀ s ∈ c9State.slots, ¬s.startTime < 0 + 1 * 60000) ∨
    ((∃ s0, c9State.slots.get? 0 = some s0 ∧ s0.startTime < 0 + 1 * 60000) ∧
      (handleDoctorDelay cfgNoQuota 0 1 c9State).1 =
        c9State.slots.flatMap
          (fun s => s.allocatedTokenIds.filter (fun id => (lookupTok c9State.tokens id).isSome))) :=
  C9_delay_first_affected_dichotomy cfgNoQuota 0 1 c9State (of_decide_eq_true rfl)
    (of_decide_eq_true rfl)

/-! ## Claim C10 — the drain loop terminates within queue-length iterations -/

/-- C10: `allocateFromQueue` terminates on every input despite the
`while (true)` loop — running the loop body with any fuel beyond the starting
queue length computes the same result as running it with exactly the queue
length (each iteration either dequeues the head for good or re-enqueues it
and stops, so the queue strictly shrinks), and the number of allocations
performed is at most the starting queue length. -/
theorem C10_drain_terminates (cfg : DoctorCfg) (now : Int) (st : EngineState) (k : Nat) :
    drainLoop cfg now (st.queue.length + k) st = allocateFromQueue cfg now st ∧
    (allocateFromQueue cfg now st).1 ≤ st.queue.length :=
  ⟨drainLoop_congr cfg now (st.queue.length + k) st.queue.length st
      (Nat.le_add_right _ _) (Nat.le_refl _),
    drainLoop_count_le cfg now st.queue.length st⟩
